import Mathlib

/-!
# UART console driver: `uart.c` and `uartstdio.c`

A shallow embedding of the polled UART console of the HiFive1 FreeRTOS demo:
the byte channel (`uart_putc`, `uart_puts`, `uart_getc`), the line writer
(`uart_write`), the line reader (`uart_gets`) and the format engine
(`uart_vprintf`).

Conventions of the embedding.

* A byte is a `Nat` below 256; `char` is unsigned on the RISC-V target.
* `uint32_t` variables are `Nat` with an explicit `% 2 ^ 32` wherever the C
  arithmetic can wrap; a `uint32_t` parameter is a `Nat` below `2 ^ 32`.  `int`
  results are `Int`, obtained from an unsigned value by `toInt32`.  An object
  of the 32-bit target has fewer than `2 ^ 31` bytes, and statements about
  returned lengths carry that bound.
* The static `int8_t` flag `bLastWasCR` only ever holds 0 or 1 and is a `Bool`.
* The transmit side of the channel is the list of bytes handed to the
  `txdata` register, oldest first.  The receive side is the list of data
  words the `rxdata` register yields once it is non-empty; a poll on an
  exhausted receive list never ends, which the embedding renders as `none`.
* A pointer to read-only bytes is the list of the bytes from the pointer to the
  end of its object (`*p` is the head, `p + k` is `drop k`); `none` is the null
  pointer.  Reading outside the object is the fault `read_past_end`.
-/

namespace UartStdio

/-! ## Machine integers -/

/-- Conversion of an unsigned 32-bit value to `int` (two's complement). -/
def toInt32 (n : Nat) : Int :=
  if n % 2 ^ 32 < 2 ^ 31 then ((n % 2 ^ 32 : Nat) : Int) else ((n % 2 ^ 32 : Nat) : Int) - 2 ^ 32

/-- Conversion of an `int` to `int8_t` (two's complement, low eight bits). -/
def toInt8 (c : Int) : Int :=
  if c % 256 < 128 then c % 256 else c % 256 - 256

/-- The byte stored by an assignment of an integer to a `char`. -/
def toChar (c : Int) : Nat := (c % 256).toNat

/-! ## Byte channel (`uart.c`) -/

/-- `uart_putc`: waits for room in the transmit FIFO and writes `c` to
`txdata`, whose data field is the low eight bits. -/
def uart_putc (c : Int) (tx : List Nat) : List Nat := tx ++ [toChar c]

/-- The loop of `uart_puts`: transmits the bytes of `s` up to its NUL, counting
them in `len`. -/
def uart_puts_loop : List Nat → Int → List Nat → Option (Int × List Nat)
  | [], _, _ => none
  | c :: s, len, tx =>
    if c ≠ 0 then uart_puts_loop s (len + 1) (uart_putc c tx) else some (len, tx)

/-- `uart_puts(s)`. -/
def uart_puts (s : List Nat) (tx : List Nat) : Option (Int × List Nat) :=
  uart_puts_loop s 0 tx

/-- `uart_getc`: the value returned for the data word `c` read from `rxdata`
once its empty flag is clear, `c & 0xff`. -/
def uart_getc (c : Nat) : Int := ((c % 256 : Nat) : Int)

/-! ## Line writer (`uart_write`) -/

/-- Faults of the embedding: behaviour the C code leaves undefined. -/
inductive Fault where
  | read_past_end
  | bad_argument
  | scratch_overflow
  | out_of_fuel
  deriving DecidableEq, Repr

deriving instance DecidableEq for Except

/-- The `for` loop of `uart_write`; the first argument is `ui32Len - uIdx`, the
number of iterations left. -/
def uart_write_loop (pcBuf : List Nat) : Nat → Nat → List Nat → Except Fault (Nat × List Nat)
  | 0, uIdx, tx => .ok (uIdx, tx)
  | n + 1, uIdx, tx =>
    match pcBuf[uIdx]? with
    | none => .error .read_past_end
    | some c =>
      let tx1 := if c = 10 then uart_putc 13 tx else tx
      uart_write_loop pcBuf n (uIdx + 1) (uart_putc c tx1)

/-- `uart_write(pcBuf, ui32Len)`: the returned `int` and the transmit stream
after the call. -/
def uart_write (pcBuf : Option (List Nat)) (ui32Len : Nat) (tx : List Nat) :
    Except Fault (Int × List Nat) :=
  match pcBuf with
  | none => .ok (0, tx)
  | some buf =>
    match uart_write_loop buf ui32Len 0 tx with
    | .error e => .error e
    | .ok (uIdx, tx1) => .ok (toInt32 uIdx, tx1)

/-! ## Line reader (`uart_gets`) -/

/-- What a call of `uart_gets` leaves behind: the returned `int`, the
assignments `pcBuf[i] = v` it made as pairs `(i, v)` in program order, the
static flag `bLastWasCR`, and the two sides of the channel. -/
structure GetsResult where
  ret : Int
  stores : List (Nat × Nat)
  bLastWasCR : Bool
  rx : List Nat
  tx : List Nat
  deriving DecidableEq, Repr

/-- The state at the `break` of the read loop of `uart_gets`. -/
structure GetsExit where
  ui32Count : Nat
  stores : List (Nat × Nat)
  bLastWasCR : Bool
  rx : List Nat
  tx : List Nat
  deriving DecidableEq, Repr

/-- The `while(1)` loop of `uart_gets`, one iteration per received data word.
`ui32Len` is the length after the decrement.  `ui32Count` moves only between 0
and `ui32Len`, so its increment and decrement cannot wrap. -/
def uart_gets_loop (ui32Len : Nat) :
    List Nat → List (Nat × Nat) → Nat → Bool → List Nat → Option GetsExit
  | [], _, _, _, _ => none
  | r :: rx, stores, ui32Count, bLastWasCR, tx =>
    let cChar := toInt8 (uart_getc r)
    if cChar = 8 then
      if ui32Count ≠ 0 then
        match uart_puts [8, 32, 8, 0] tx with
        | none => none
        | some (_, tx1) => uart_gets_loop ui32Len rx stores (ui32Count - 1) bLastWasCR tx1
      else
        uart_gets_loop ui32Len rx stores ui32Count bLastWasCR tx
    else if cChar = 10 ∧ bLastWasCR = true then
      uart_gets_loop ui32Len rx stores ui32Count false tx
    else if cChar = 13 ∨ cChar = 10 ∨ cChar = 27 then
      some ⟨ui32Count, stores, if cChar = 13 then true else bLastWasCR, rx, tx⟩
    else if ui32Count < ui32Len then
      uart_gets_loop ui32Len rx (stores ++ [(ui32Count, toChar cChar)]) (ui32Count + 1)
        bLastWasCR (uart_putc cChar tx)
    else
      uart_gets_loop ui32Len rx stores ui32Count bLastWasCR tx

/-- `uart_gets(pcBuf, ui32Len)`.  `pcBuf` is `none` for the null pointer and
otherwise the memory at the pointer, indexed from 0, which the function never
reads.  `bLastWasCR` is the value of the static flag on entry, `rx` and `tx`
the channel on entry.  The result is `none` when the receive side runs dry
before a terminator: the call does not return. -/
def uart_gets (pcBuf : Option (Nat → Nat)) (ui32Len : Nat) (bLastWasCR : Bool)
    (rx tx : List Nat) : Option GetsResult :=
  match pcBuf with
  | none => some ⟨-1, [], bLastWasCR, rx, tx⟩
  | some _ =>
    match uart_gets_loop ((ui32Len + 2 ^ 32 - 1) % 2 ^ 32) rx [] 0 bLastWasCR tx with
    | none => none
    | some e =>
      match uart_puts [13, 10, 0] e.tx with
      | none => none
      | some (_, tx1) =>
        some ⟨toInt32 e.ui32Count, e.stores ++ [(e.ui32Count, 0)], e.bLastWasCR, e.rx, tx1⟩

/-- The memory at `pcBuf` after the assignments `stores` were made on `mem`. -/
def bufAfter (mem : Nat → Nat) : List (Nat × Nat) → Nat → Nat
  | [] => mem
  | (i, v) :: stores => bufAfter (Function.update mem i v) stores

/-- The `n` bytes of `mem` from index 0. -/
def bufPrefix (mem : Nat → Nat) (n : Nat) : List Nat := (List.range n).map mem

/-! ## Format engine (`uart_vprintf`) -/

/-- The digit table `g_pcHex`, the string `"0123456789abcdef"`. -/
def g_pcHex : List Nat := [48, 49, 50, 51, 52, 53, 54, 55, 56, 57, 97, 98, 99, 100, 101, 102]

/-- One entry of the variable argument list: a 32-bit word, or a pointer to the
bytes of a string. -/
inductive VaArg where
  | word (v : Nat)
  | str (s : List Nat)
  deriving DecidableEq, Repr

/-- `va_arg(vaArgP, uint32_t)`. -/
def va_arg_uint32 : List VaArg → Except Fault (Nat × List VaArg)
  | .word v :: vaArgP => .ok (v % 2 ^ 32, vaArgP)
  | _ => .error .bad_argument

/-- `va_arg(vaArgP, char *)`. -/
def va_arg_ptr : List VaArg → Except Fault (List Nat × List VaArg)
  | .str s :: vaArgP => .ok (s, vaArgP)
  | _ => .error .bad_argument

/-- The memory image of a `uint32_t` on the little-endian target, as read
through `(char *)&ui32Value`. -/
def wordBytes (v : Nat) : List Nat :=
  [v % 256, v / 256 % 256, v / 65536 % 256, v / 16777216 % 256]

/-- The scan for the end of a run of literal text: the value of `ui32Idx` when
`pcString[ui32Idx]` is `'%'` or NUL. -/
def scan_literal : List Nat → Option Nat
  | [] => none
  | c :: pcString =>
    if c ≠ 37 ∧ c ≠ 0 then
      match scan_literal pcString with
      | none => none
      | some ui32Idx => some (ui32Idx + 1)
    else some 0

/-- The length loop of `%s`: the value of `ui32Idx` when `pcStr[ui32Idx]` is NUL. -/
def scan_string : List Nat → Option Nat
  | [] => none
  | c :: pcStr =>
    if c ≠ 0 then
      match scan_string pcStr with
      | none => none
      | some ui32Idx => some (ui32Idx + 1)
    else some 0

/-- The padding loop of `%s`, `while(ui32Count--) uart_write(" ", 1)`. -/
def pad_loop : Nat → List Nat → Except Fault (List Nat)
  | 0, tx => .ok tx
  | ui32Count + 1, tx =>
    match uart_write (some [32, 0]) 1 tx with
    | .error e => .error e
    | .ok (_, tx1) => pad_loop ui32Count tx1

/-- The first loop at `convert:`, which raises `ui32Idx` to the highest place
value of `ui32Value` and lowers `ui32Count` once per step; the result is
`(ui32Idx, ui32Count)` at exit.  The first argument bounds the number of
iterations. -/
def convert_scale : Nat → Nat → Nat → Nat → Nat → Option (Nat × Nat)
  | 0, _, _, _, _ => none
  | fuel + 1, ui32Base, ui32Value, ui32Idx, ui32Count =>
    if (ui32Idx * ui32Base) % 2 ^ 32 ≤ ui32Value
        ∧ (ui32Idx * ui32Base) % 2 ^ 32 / ui32Base = ui32Idx then
      convert_scale fuel ui32Base ui32Value ((ui32Idx * ui32Base) % 2 ^ 32)
        ((ui32Count + 2 ^ 32 - 1) % 2 ^ 32)
    else some (ui32Idx, ui32Count)

/-- The padding loop of the conversion, `for(ui32Count--; ui32Count; ui32Count--)`;
the first argument is `ui32Count` after the initial decrement. -/
def convert_fill : Nat → Nat → List Nat → List Nat
  | 0, _, pcBuf => pcBuf
  | ui32Count + 1, cFill, pcBuf => convert_fill ui32Count cFill (pcBuf ++ [cFill])

/-- The digit loop of the conversion, `for(; ui32Idx; ui32Idx /= ui32Base)`.
The first argument bounds the number of iterations. -/
def convert_digits : Nat → Nat → Nat → Nat → List Nat → Option (List Nat)
  | 0, _, _, _, _ => none
  | fuel + 1, ui32Base, ui32Value, ui32Idx, pcBuf =>
    if ui32Idx ≠ 0 then
      convert_digits fuel ui32Base ui32Value (ui32Idx / ui32Base)
        (pcBuf ++ [g_pcHex.getD (ui32Value / ui32Idx % ui32Base) 0])
    else some pcBuf

/-- The code from `convert:` up to the call of `uart_write`: the bytes assigned
to `pcBuf[0]`, `pcBuf[1]`, ... in order, so that the length of the result is the
final `ui32Pos`.  The array has 16 elements; the list is not cut there. -/
def convert (ui32Value ui32Base ui32Count ui32Neg cFill : Nat) : Except Fault (List Nat) :=
  match convert_scale 32 ui32Base ui32Value 1 ui32Count with
  | none => .error .out_of_fuel
  | some (ui32Idx, count1) =>
    let count2 := if ui32Neg ≠ 0 then (count1 + 2 ^ 32 - 1) % 2 ^ 32 else count1
    let pcBuf1 := if ui32Neg ≠ 0 ∧ cFill = 48 then [45] else []
    let neg1 := if ui32Neg ≠ 0 ∧ cFill = 48 then 0 else ui32Neg
    let pcBuf2 :=
      if 1 < count2 ∧ count2 < 16 then convert_fill (count2 - 1) cFill pcBuf1 else pcBuf1
    let pcBuf3 := if neg1 ≠ 0 then pcBuf2 ++ [45] else pcBuf2
    match convert_digits 33 ui32Base ui32Value ui32Idx pcBuf3 with
    | none => .error .out_of_fuel
    | some pcBuf4 => .ok pcBuf4

/-- The conversion followed by `uart_write(pcBuf, ui32Pos)`.  More than 16
assignments run past the array `pcBuf[16]`. -/
def convert_write (ui32Value ui32Base ui32Count ui32Neg cFill : Nat) (tx : List Nat) :
    Except Fault (List Nat) :=
  match convert ui32Value ui32Base ui32Count ui32Neg cFill with
  | .error e => .error e
  | .ok pcBuf =>
    if pcBuf.length ≤ 16 then
      match uart_write (some pcBuf) pcBuf.length tx with
      | .error e => .error e
      | .ok (_, tx1) => .ok tx1
    else .error .scratch_overflow

/-- The `switch` of `uart_vprintf` for a character `c = pcString[-1]` that is
not a digit; `pcString` is the pointer after the increment.  The result is the
argument list and the transmit stream after the directive. -/
def directive (c : Nat) (pcString : List Nat) (ui32Count cFill : Nat) (vaArgP : List VaArg)
    (tx : List Nat) : Except Fault (List VaArg × List Nat) :=
  if c = 99 then
    match va_arg_uint32 vaArgP with
    | .error e => .error e
    | .ok (ui32Value, vaArgP1) =>
      match uart_write (some (wordBytes ui32Value)) 1 tx with
      | .error e => .error e
      | .ok (_, tx1) => .ok (vaArgP1, tx1)
  else if c = 100 ∨ c = 105 then
    match va_arg_uint32 vaArgP with
    | .error e => .error e
    | .ok (ui32Value, vaArgP1) =>
      let r :=
        if 2 ^ 31 ≤ ui32Value then
          convert_write ((2 ^ 32 - ui32Value) % 2 ^ 32) 10 ui32Count 1 cFill tx
        else convert_write ui32Value 10 ui32Count 0 cFill tx
      match r with
      | .error e => .error e
      | .ok tx1 => .ok (vaArgP1, tx1)
  else if c = 115 then
    match va_arg_ptr vaArgP with
    | .error e => .error e
    | .ok (pcStr, vaArgP1) =>
      match scan_string pcStr with
      | none => .error .read_past_end
      | some ui32Idx =>
        match uart_write (some pcStr) ui32Idx tx with
        | .error e => .error e
        | .ok (_, tx1) =>
          if ui32Count > ui32Idx then
            match pad_loop (ui32Count - ui32Idx) tx1 with
            | .error e => .error e
            | .ok tx2 => .ok (vaArgP1, tx2)
          else .ok (vaArgP1, tx1)
  else if c = 117 then
    match va_arg_uint32 vaArgP with
    | .error e => .error e
    | .ok (ui32Value, vaArgP1) =>
      match convert_write ui32Value 10 ui32Count 0 cFill tx with
      | .error e => .error e
      | .ok tx1 => .ok (vaArgP1, tx1)
  else if c = 120 ∨ c = 88 ∨ c = 112 then
    match va_arg_uint32 vaArgP with
    | .error e => .error e
    | .ok (ui32Value, vaArgP1) =>
      match convert_write ui32Value 16 ui32Count 0 cFill tx with
      | .error e => .error e
      | .ok tx1 => .ok (vaArgP1, tx1)
  else if c = 37 then
    match uart_write (some (c :: pcString)) 1 tx with
    | .error e => .error e
    | .ok (_, tx1) => .ok (vaArgP, tx1)
  else
    match uart_write (some [69, 82, 82, 79, 82, 0]) 5 tx with
    | .error e => .error e
    | .ok (_, tx1) => .ok (vaArgP, tx1)

/-- The code from the label `again:`: `switch(*pcString++)`, where a digit
updates the fill character and the width and jumps back to `again`.  The result
is `pcString`, the argument list and the transmit stream after the directive. -/
def again : List Nat → Nat → Nat → List VaArg → List Nat →
    Except Fault (List Nat × List VaArg × List Nat)
  | [], _, _, _, _ => .error .read_past_end
  | c :: pcString, ui32Count, cFill, vaArgP, tx =>
    if 48 ≤ c ∧ c ≤ 57 then
      again pcString ((ui32Count * 10 + (c - 48)) % 2 ^ 32)
        (if c = 48 ∧ ui32Count = 0 then 48 else cFill) vaArgP tx
    else
      match directive c pcString ui32Count cFill vaArgP tx with
      | .error e => .error e
      | .ok (vaArgP1, tx1) => .ok (pcString, vaArgP1, tx1)

/-- The `while(*pcString)` loop of `uart_vprintf`.  Every iteration but the
last moves `pcString` forward, so the first argument, which bounds the number
of iterations, is taken one larger than the length of the template's object. -/
def uart_vprintf_loop : Nat → List Nat → List VaArg → List Nat →
    Except Fault (List VaArg × List Nat)
  | 0, _, _, _ => .error .out_of_fuel
  | _ + 1, [], _, _ => .error .read_past_end
  | fuel + 1, c :: s, vaArgP, tx =>
    if c ≠ 0 then
      match scan_literal (c :: s) with
      | none => .error .read_past_end
      | some ui32Idx =>
        match uart_write (some (c :: s)) ui32Idx tx with
        | .error e => .error e
        | .ok (_, tx1) =>
          match (c :: s).drop ui32Idx with
          | 37 :: pcString1 =>
            match again pcString1 0 32 vaArgP tx1 with
            | .error e => .error e
            | .ok (pcString2, vaArgP2, tx2) => uart_vprintf_loop fuel pcString2 vaArgP2 tx2
          | pcString1 => uart_vprintf_loop fuel pcString1 vaArgP tx1
    else .ok (vaArgP, tx)

/-- `uart_vprintf(pcString, vaArgP)`: the argument list left unread and the
transmit stream after the call. -/
def uart_vprintf (pcString : Option (List Nat)) (vaArgP : List VaArg) (tx : List Nat) :
    Except Fault (List VaArg × List Nat) :=
  match pcString with
  | none => .ok (vaArgP, tx)
  | some s => uart_vprintf_loop (s.length + 1) s vaArgP tx

/-- The values of `ui32Count` and `cFill` after the width digits `ds` have gone
through the digit case of the `switch`, one pass per digit. -/
def width_scan : List Nat → Nat → Nat → Nat × Nat
  | [], ui32Count, cFill => (ui32Count, cFill)
  | c :: ds, ui32Count, cFill =>
    width_scan ds ((ui32Count * 10 + (c - 48)) % 2 ^ 32)
      (if c = 48 ∧ ui32Count = 0 then 48 else cFill)

/-- The directive characters that lead to `convert:`: `d`, `i`, `u`, `x`, `X`, `p`. -/
def numeric (c : Nat) : Prop := c = 100 ∨ c = 105 ∨ c = 117 ∨ c = 120 ∨ c = 88 ∨ c = 112

instance (c : Nat) : Decidable (numeric c) := by unfold numeric; infer_instance

/-- The value of `ui32Base` at `convert:` for the directive `c`. -/
def numBase (c : Nat) : Nat := if c = 120 ∨ c = 88 ∨ c = 112 then 16 else 10

/-- The value of `ui32Neg` at `convert:` for the directive `c` and the argument word `v`. -/
def numNeg (c v : Nat) : Nat := if (c = 100 ∨ c = 105) ∧ 2 ^ 31 ≤ v then 1 else 0

/-- The value of `ui32Value` at `convert:` for the directive `c` and the argument word `v`. -/
def numMag (c v : Nat) : Nat :=
  if (c = 100 ∨ c = 105) ∧ 2 ^ 31 ≤ v then (2 ^ 32 - v) % 2 ^ 32 else v

/-- The 32-bit word that holds the `int` value `v`. -/
def ofInt32 (v : Int) : Nat := (v % 2 ^ 32).toNat

/-! ## Specification-side functions -/

/-- Line-ending translation: a carriage return before every line feed. -/
def crlf : List Nat → List Nat
  | [] => []
  | c :: s => if c = 10 then 13 :: 10 :: crlf s else c :: crlf s

/-- Line editing as the specification words it, on the bytes kept so far: a
backspace deletes the most recently kept byte (and does nothing when none is
kept), any other byte is appended. -/
def editLine : List Nat → List Nat → List Nat
  | kept, [] => kept
  | kept, b :: inp => if b = 8 then editLine kept.dropLast inp else editLine (kept ++ [b]) inp

/-- The echo of one call of the line reader as the specification words it, for
the usable length `ui32Len`, the received bytes, the number `count` of bytes
kept so far and the flag: a backspace at a nonzero count gives backspace,
space, backspace and one at count zero nothing; a line feed while the flag is
set is swallowed and gives nothing; a terminator ends the line; any other byte
is echoed as it is when it is stored, and gives nothing when it is discarded. -/
def echoLine (ui32Len : Nat) : List Nat → Nat → Bool → List Nat
  | [], _, _ => []
  | b :: inp, count, flag =>
    if b = 8 then
      if count ≠ 0 then 8 :: 32 :: 8 :: echoLine ui32Len inp (count - 1) flag
      else echoLine ui32Len inp count flag
    else if b = 10 ∧ flag = true then echoLine ui32Len inp count false
    else if b = 13 ∨ b = 10 ∨ b = 27 then []
    else if count < ui32Len then b :: echoLine ui32Len inp (count + 1) flag
    else echoLine ui32Len inp count flag

/-- The bytes of a sequence of echo events: `some v` is the echo of the stored
byte `v`, `none` is the erase sequence backspace, space, backspace. -/
def echoChunks : List (Option Nat) → List Nat
  | [] => []
  | some v :: cs => v :: echoChunks cs
  | none :: cs => 8 :: 32 :: 8 :: echoChunks cs

/-- The digits of `n` in base `b` as characters of `"0123456789abcdef"`, most
significant first and without a leading zero; `"0"` for zero. -/
def digitText (b n : Nat) : List Nat :=
  if n = 0 then [48] else (Nat.digits b n).reverse.map fun d => g_pcHex.getD d 0

/-- The value of `ui32Count` when the conversion tests whether to pad: the
parsed width `ui32Count` lowered, modulo `2 ^ 32`, once for each of the `d`
digits but the first and once for each of the `n` pending sign characters. -/
def fieldCount (d n ui32Count : Nat) : Nat :=
  (ui32Count + 2 ^ 32 * (d - 1 + n) - (d - 1 + n)) % 2 ^ 32

/-- The number written by the decimal digit characters `ds`. -/
def decVal (ds : List Nat) : Nat := ds.foldl (fun w c => w * 10 + (c - 48)) 0

/-- The fill character selected by the width digits `ds`: `'0'` when they start
with a `0`, a space otherwise. -/
def fillOf (ds : List Nat) : Nat := if ds.head? = some 48 then 48 else 32

/-- The text of a numeric field of width `w` and fill character `f` for the
directive `c` and the argument word `v`: with `d` digits and `n` sign
characters, `w - (d + n)` fill characters (none when `w ≤ d + n`), placed
behind the sign for zero fill and ahead of it for space fill. -/
def fieldText (c v w f : Nat) : List Nat :=
  (if numNeg c v ≠ 0 ∧ f = 48 then [45] else [])
    ++ List.replicate
        (w - ((digitText (numBase c) (numMag c v)).length + if numNeg c v ≠ 0 then 1 else 0)) f
    ++ (if numNeg c v ≠ 0 ∧ ¬ f = 48 then [45] else [])
    ++ digitText (numBase c) (numMag c v)

/-- The digit value of a character of `"0123456789abcdef"`. -/
def hexVal (c : Nat) : Nat := if c ≤ 57 then c - 48 else c - 87

/-- A byte that `uart_gets` treats as ordinary: not backspace, LF, CR or ESC. -/
def ordinary (b : Nat) : Prop := b < 256 ∧ b ≠ 8 ∧ b ≠ 10 ∧ b ≠ 13 ∧ b ≠ 27

instance (b : Nat) : Decidable (ordinary b) := by unfold ordinary; infer_instance

/-! ## Facts about the machine integers and the byte channel -/

theorem toChar_ofNat (c : Nat) (h : c < 256) : toChar (c : Int) = c := by
  unfold toChar
  have : ((c : Int) % 256) = c := by omega
  rw [this]; simp

theorem toInt32_of_lt (n : Nat) (h : n < 2 ^ 31) : toInt32 n = (n : Int) := by
  unfold toInt32
  have h1 : n % 2 ^ 32 = n := Nat.mod_eq_of_lt (by omega)
  rw [h1, if_pos h]

theorem uart_putc_byte (c : Nat) (h : c < 256) (tx : List Nat) :
    uart_putc (c : Int) tx = tx ++ [c] := by
  unfold uart_putc; rw [toChar_ofNat c h]

theorem uart_putc_cr (tx : List Nat) : uart_putc 13 tx = tx ++ [13] :=
  uart_putc_byte 13 (by decide) tx

theorem uart_putc_lf (tx : List Nat) : uart_putc 10 tx = tx ++ [10] :=
  uart_putc_byte 10 (by decide) tx

/-! ## Line writer -/

theorem uart_write_loop_spec (pcBuf : List Nat) :
    ∀ (n uIdx : Nat) (tx : List Nat), uIdx + n ≤ pcBuf.length →
      (∀ b ∈ (pcBuf.drop uIdx).take n, b < 256) →
      uart_write_loop pcBuf n uIdx tx
        = .ok (uIdx + n, tx ++ crlf ((pcBuf.drop uIdx).take n)) := by
  intro n
  induction n with
  | zero => intro uIdx tx _ _; simp [uart_write_loop, crlf]
  | succ n ih =>
    intro uIdx tx h hb
    have hlt : uIdx < pcBuf.length := by omega
    have hget : pcBuf[uIdx]? = some pcBuf[uIdx] := List.getElem?_eq_getElem hlt
    have hdrop : pcBuf.drop uIdx = pcBuf[uIdx] :: pcBuf.drop (uIdx + 1) :=
      List.drop_eq_getElem_cons hlt
    rw [hdrop, List.take_succ_cons] at hb
    have hc : pcBuf[uIdx] < 256 := hb _ (List.mem_cons_self _ _)
    rw [uart_write_loop, hget]
    simp only []
    rw [ih (uIdx + 1) _ (by omega) (fun b hm => hb b (List.mem_cons_of_mem _ hm)), hdrop,
      List.take_succ_cons, crlf]
    by_cases h10 : pcBuf[uIdx] = 10
    · simp [h10, uart_putc_cr, uart_putc_lf, Nat.add_assoc, Nat.add_comm 1 n]
    · simp [h10, uart_putc_byte _ hc, Nat.add_assoc, Nat.add_comm 1 n]

/-- Writing the leading part `s` of the object `s ++ rest`. -/
theorem uart_write_leading (s rest : List Nat) (tx : List Nat) (hb : ∀ b ∈ s, b < 256) :
    uart_write (some (s ++ rest)) s.length tx = .ok (toInt32 s.length, tx ++ crlf s) := by
  simp only [uart_write]
  rw [uart_write_loop_spec (s ++ rest) s.length 0 tx (by simp) (by simpa using hb)]
  simp

theorem crlf_length (s : List Nat) : (crlf s).length = s.length + s.count 10 := by
  induction s with
  | nil => simp [crlf]
  | cons c s ih =>
    by_cases h : c = 10
    · subst h; simp [crlf, ih]; omega
    · have h' : ¬ (10 = c) := fun e => h e.symm
      simp [crlf, h, ih, List.count_cons, h']; omega

/-- In a translated stream every line feed has a carriage return right before it. -/
theorem crlf_lf_after_cr (s : List Nat) :
    ∀ i, (crlf s).get? i = some 10 → ∃ j, i = j + 1 ∧ (crlf s).get? j = some 13 := by
  induction s with
  | nil => intro i h; simp [crlf] at h
  | cons c s ih =>
    intro i h
    by_cases hc : c = 10
    · subst hc
      simp only [crlf, if_true] at h ⊢
      match i, h with
      | 0, h => simp at h
      | 1, _ => exact ⟨0, rfl, rfl⟩
      | k + 2, h =>
        obtain ⟨j, hj, hj2⟩ := ih k (by simpa using h)
        exact ⟨j + 2, by omega, by simpa using hj2⟩
    · simp only [crlf, if_neg hc] at h ⊢
      match i, h with
      | 0, h => simp at h; exact absurd h hc
      | k + 1, h =>
        obtain ⟨j, hj, hj2⟩ := ih k (by simpa using h)
        exact ⟨j + 1, by omega, by simpa using hj2⟩

/-- C1: for a non-null buffer of bytes and a length `ui32Len` within it,
`uart_write` returns `ui32Len` and appends to the transmit stream the first
`ui32Len` bytes in order with a carriage return inserted before each line feed
and nothing else changed; the number of bytes transmitted is `ui32Len` plus the
number of line feeds among them, and every transmitted line feed directly
follows a carriage return.  The buffer is a C object of the 32-bit target, so
its size is below `2 ^ 31`. -/
theorem uart_write_translates (pcBuf : List Nat) (ui32Len : Nat) (tx : List Nat)
    (hbytes : ∀ b ∈ pcBuf, b < 256) (hsize : pcBuf.length < 2 ^ 31)
    (hlen : ui32Len ≤ pcBuf.length) :
    uart_write (some pcBuf) ui32Len tx
        = .ok ((ui32Len : Int), tx ++ crlf (pcBuf.take ui32Len))
      ∧ (crlf (pcBuf.take ui32Len)).length = ui32Len + (pcBuf.take ui32Len).count 10
      ∧ ∀ i, (crlf (pcBuf.take ui32Len)).get? i = some 10 →
          ∃ j, i = j + 1 ∧ (crlf (pcBuf.take ui32Len)).get? j = some 13 := by
  refine ⟨?_, ?_, crlf_lf_after_cr _⟩
  · simp only [uart_write]
    rw [uart_write_loop_spec pcBuf ui32Len 0 tx (by omega)
      (fun b hm => hbytes b (List.mem_of_mem_take hm))]
    simp [toInt32_of_lt ui32Len (by omega)]
  · rw [crlf_length, List.length_take, Nat.min_eq_left hlen]

theorem uart_write_translates_witness :
    uart_write (some [104, 105, 10, 33]) 3 [62]
        = .ok ((3 : Nat), [62] ++ crlf ([104, 105, 10, 33].take 3))
      ∧ (crlf ([104, 105, 10, 33].take 3)).length = 3 + ([104, 105, 10, 33].take 3).count 10
      ∧ ∀ i, (crlf ([104, 105, 10, 33].take 3)).get? i = some 10 →
          ∃ j, i = j + 1 ∧ (crlf ([104, 105, 10, 33].take 3)).get? j = some 13 :=
  uart_write_translates [104, 105, 10, 33] 3 [62] (by decide) (by norm_num) (by decide)

/-! ## Line reader: one iteration of the read loop -/

theorem toInt8_getc_eq (r k : Nat) (hk : k < 128) :
    toInt8 (uart_getc r) = (k : Int) ↔ r % 256 = k := by
  unfold toInt8 uart_getc
  have h := Nat.mod_lt r (show 0 < 256 by decide)
  split <;> omega

theorem toChar_toInt8_getc (r : Nat) : toChar (toInt8 (uart_getc r)) = r % 256 := by
  unfold toChar toInt8 uart_getc
  have h := Nat.mod_lt r (show 0 < 256 by decide)
  split <;> omega

theorem uart_puts_erase (tx : List Nat) :
    uart_puts [8, 32, 8, 0] tx = some (3, tx ++ [8, 32, 8]) := by
  simp [uart_puts, uart_puts_loop, uart_putc, toChar]

theorem uart_puts_newline (tx : List Nat) :
    uart_puts [13, 10, 0] tx = some (2, tx ++ [13, 10]) := by
  simp [uart_puts, uart_puts_loop, uart_putc, toChar]

/-- A received backspace. -/
theorem uart_gets_loop_backspace (ui32Len r : Nat) (rx : List Nat) (stores : List (Nat × Nat))
    (ui32Count : Nat) (bLastWasCR : Bool) (tx : List Nat) (hr : r % 256 = 8) :
    uart_gets_loop ui32Len (r :: rx) stores ui32Count bLastWasCR tx
      = if ui32Count ≠ 0 then
          uart_gets_loop ui32Len rx stores (ui32Count - 1) bLastWasCR (tx ++ [8, 32, 8])
        else uart_gets_loop ui32Len rx stores ui32Count bLastWasCR tx := by
  have h8 : toInt8 (uart_getc r) = 8 := (toInt8_getc_eq r 8 (by decide)).2 hr
  rw [uart_gets_loop]
  simp only [h8, if_true, uart_puts_erase]

/-- A received line feed while the flag is set. -/
theorem uart_gets_loop_swallow (ui32Len r : Nat) (rx : List Nat) (stores : List (Nat × Nat))
    (ui32Count : Nat) (tx : List Nat) (hr : r % 256 = 10) :
    uart_gets_loop ui32Len (r :: rx) stores ui32Count true tx
      = uart_gets_loop ui32Len rx stores ui32Count false tx := by
  have h10 : toInt8 (uart_getc r) = 10 := (toInt8_getc_eq r 10 (by decide)).2 hr
  rw [uart_gets_loop]
  simp [h10]

/-- A received carriage return. -/
theorem uart_gets_loop_cr (ui32Len r : Nat) (rx : List Nat) (stores : List (Nat × Nat))
    (ui32Count : Nat) (bLastWasCR : Bool) (tx : List Nat) (hr : r % 256 = 13) :
    uart_gets_loop ui32Len (r :: rx) stores ui32Count bLastWasCR tx
      = some ⟨ui32Count, stores, true, rx, tx⟩ := by
  have h13 : toInt8 (uart_getc r) = 13 := (toInt8_getc_eq r 13 (by decide)).2 hr
  rw [uart_gets_loop]
  simp [h13]

/-- A received escape. -/
theorem uart_gets_loop_esc (ui32Len r : Nat) (rx : List Nat) (stores : List (Nat × Nat))
    (ui32Count : Nat) (bLastWasCR : Bool) (tx : List Nat) (hr : r % 256 = 27) :
    uart_gets_loop ui32Len (r :: rx) stores ui32Count bLastWasCR tx
      = some ⟨ui32Count, stores, bLastWasCR, rx, tx⟩ := by
  have h27 : toInt8 (uart_getc r) = 27 := (toInt8_getc_eq r 27 (by decide)).2 hr
  rw [uart_gets_loop]
  simp [h27]

/-- A received line feed while the flag is clear. -/
theorem uart_gets_loop_lf (ui32Len r : Nat) (rx : List Nat) (stores : List (Nat × Nat))
    (ui32Count : Nat) (tx : List Nat) (hr : r % 256 = 10) :
    uart_gets_loop ui32Len (r :: rx) stores ui32Count false tx
      = some ⟨ui32Count, stores, false, rx, tx⟩ := by
  have h10 : toInt8 (uart_getc r) = 10 := (toInt8_getc_eq r 10 (by decide)).2 hr
  rw [uart_gets_loop]
  simp [h10]

/-- A received byte that is neither backspace nor terminator. -/
theorem uart_gets_loop_ordinary (ui32Len r : Nat) (rx : List Nat) (stores : List (Nat × Nat))
    (ui32Count : Nat) (bLastWasCR : Bool) (tx : List Nat)
    (h8 : r % 256 ≠ 8) (h10 : r % 256 ≠ 10) (h13 : r % 256 ≠ 13) (h27 : r % 256 ≠ 27) :
    uart_gets_loop ui32Len (r :: rx) stores ui32Count bLastWasCR tx
      = if ui32Count < ui32Len then
          uart_gets_loop ui32Len rx (stores ++ [(ui32Count, r % 256)]) (ui32Count + 1)
            bLastWasCR (tx ++ [r % 256])
        else uart_gets_loop ui32Len rx stores ui32Count bLastWasCR tx := by
  have e8 : ¬ toInt8 (uart_getc r) = 8 := fun h => h8 ((toInt8_getc_eq r 8 (by decide)).1 h)
  have e10 : ¬ toInt8 (uart_getc r) = 10 := fun h => h10 ((toInt8_getc_eq r 10 (by decide)).1 h)
  have e13 : ¬ toInt8 (uart_getc r) = 13 := fun h => h13 ((toInt8_getc_eq r 13 (by decide)).1 h)
  have e27 : ¬ toInt8 (uart_getc r) = 27 := fun h => h27 ((toInt8_getc_eq r 27 (by decide)).1 h)
  rw [uart_gets_loop]
  simp only [e8, e10, e13, e27, if_false, false_and, false_or, uart_putc, toChar_toInt8_getc]

/-- The five ways one received data word is handled. -/
theorem rx_cases (r : Nat) :
    r % 256 = 8 ∨ r % 256 = 10 ∨ r % 256 = 13 ∨ r % 256 = 27 ∨
      (r % 256 ≠ 8 ∧ r % 256 ≠ 10 ∧ r % 256 ≠ 13 ∧ r % 256 ≠ 27) := by
  omega

/-! ## Line reader: buffer bounds -/

theorem bufAfter_append_self (stores : List (Nat × Nat)) :
    ∀ (mem : Nat → Nat) (i v : Nat), bufAfter mem (stores ++ [(i, v)]) i = v := by
  induction stores with
  | nil => intro mem i v; simp [bufAfter]
  | cons p stores ih => intro mem i v; obtain ⟨j, w⟩ := p; simpa [bufAfter] using ih _ i v

/-- The read loop keeps the count within `ui32Len` and stores below `ui32Len`. -/
theorem uart_gets_loop_bounds (ui32Len : Nat) :
    ∀ (rx : List Nat) (stores : List (Nat × Nat)) (ui32Count : Nat) (bLastWasCR : Bool)
      (tx : List Nat) (e : GetsExit),
      ui32Count ≤ ui32Len → (∀ p ∈ stores, p.1 < ui32Len) →
      uart_gets_loop ui32Len rx stores ui32Count bLastWasCR tx = some e →
      e.ui32Count ≤ ui32Len ∧ ∀ p ∈ e.stores, p.1 < ui32Len := by
  intro rx
  induction rx with
  | nil => intro stores c f tx e _ _ h; simp [uart_gets_loop] at h
  | cons r rx ih =>
    intro stores c f tx e hc hs h
    rcases rx_cases r with h8 | h10 | h13 | h27 | ⟨n8, n10, n13, n27⟩
    · rw [uart_gets_loop_backspace _ _ _ _ _ _ _ h8] at h
      split at h
      · exact ih _ _ _ _ _ (by omega) hs h
      · exact ih _ _ _ _ _ hc hs h
    · cases f
      · rw [uart_gets_loop_lf _ _ _ _ _ _ h10] at h
        cases h; exact ⟨hc, hs⟩
      · rw [uart_gets_loop_swallow _ _ _ _ _ _ h10] at h
        exact ih _ _ _ _ _ hc hs h
    · rw [uart_gets_loop_cr _ _ _ _ _ _ _ h13] at h
      cases h; exact ⟨hc, hs⟩
    · rw [uart_gets_loop_esc _ _ _ _ _ _ _ h27] at h
      cases h; exact ⟨hc, hs⟩
    · rw [uart_gets_loop_ordinary _ _ _ _ _ _ _ n8 n10 n13 n27] at h
      split at h
      · refine ih _ _ _ _ _ (by omega) ?_ h
        intro p hp
        rcases List.mem_append.1 hp with hp | hp
        · exact hs p hp
        · simp at hp; subst hp; assumption
      · exact ih _ _ _ _ _ hc hs h

/-- C2, as amended: for a non-null buffer, a capacity `ui32Len ≥ 1` (that of a
buffer of the 32-bit target, hence below `2 ^ 31`), any value of the flag and
any input on which the call returns, `uart_gets` returns a count `n` with
`0 ≤ n ≤ ui32Len - 1`, leaves `pcBuf[n] = 0`, and every index it assigns is at
most `ui32Len - 1`, the last assignment being the terminator at index `n`. -/
theorem uart_gets_within_capacity (pcBuf : Nat → Nat) (ui32Len : Nat) (bLastWasCR : Bool)
    (rx tx : List Nat) (r : GetsResult)
    (hcap : 1 ≤ ui32Len) (hsize : ui32Len < 2 ^ 31)
    (hret : uart_gets (some pcBuf) ui32Len bLastWasCR rx tx = some r) :
    ∃ n : Nat, r.ret = (n : Int) ∧ n ≤ ui32Len - 1 ∧ bufAfter pcBuf r.stores n = 0 ∧
      (∀ p ∈ r.stores, p.1 ≤ ui32Len - 1) ∧ r.stores.getLast? = some (n, 0) := by
  have hlen : (ui32Len + 2 ^ 32 - 1) % 2 ^ 32 = ui32Len - 1 := by omega
  simp only [uart_gets, hlen, uart_puts_newline] at hret
  cases hloop : uart_gets_loop (ui32Len - 1) rx [] 0 bLastWasCR tx with
  | none => rw [hloop] at hret; simp at hret
  | some e =>
    rw [hloop] at hret
    simp only [Option.some.injEq] at hret
    obtain ⟨hc, hs⟩ := uart_gets_loop_bounds (ui32Len - 1) rx [] 0 bLastWasCR tx e
      (Nat.zero_le _) (by simp) hloop
    subst hret
    refine ⟨e.ui32Count, toInt32_of_lt _ (by omega), hc, bufAfter_append_self _ _ _ _, ?_, ?_⟩
    · intro p hp
      rcases List.mem_append.1 hp with hp | hp
      · exact Nat.le_of_lt (hs p hp)
      · simp at hp; subst hp; exact hc
    · simp

theorem uart_gets_within_capacity_witness :
    ∃ n : Nat, (2 : Int) = (n : Int) ∧ n ≤ 8 - 1 ∧
      bufAfter (fun _ => 255) [(0, 97), (1, 98), (1, 99), (2, 0)] n = 0 ∧
      (∀ p ∈ [(0, 97), (1, 98), (1, 99), (2, 0)], p.1 ≤ 8 - 1) ∧
      [(0, 97), (1, 98), (1, 99), (2, 0)].getLast? = some (n, 0) :=
  uart_gets_within_capacity (fun _ => 255) 8 false [97, 98, 8, 99, 13] []
    ⟨2, [(0, 97), (1, 98), (1, 99), (2, 0)], true, [], [97, 98, 8, 32, 8, 99, 13, 10]⟩
    (by decide) (by norm_num) (by decide)

/-- C2, as stated, fails: with capacity 3 and input `a`, `b`, backspace,
backspace, CR the call returns `n = 0` after assigning index 1, so not every
index it assigns is at most `n`. -/
theorem uart_gets_assigns_above_count :
    ¬ (∀ r : GetsResult, uart_gets (some fun _ => 0) 3 false [97, 98, 8, 8, 13] [] = some r →
        ∀ p ∈ r.stores, (p.1 : Int) ≤ r.ret) := by
  intro h
  have h1 := h ⟨0, [(0, 97), (1, 98), (0, 0)], true, [], [97, 98, 8, 32, 8, 8, 32, 8, 13, 10]⟩
    (by decide) (1, 98) (by decide)
  simp at h1

/-! ## Line reader: backspace editing -/

theorem bufAfter_append (stores : List (Nat × Nat)) :
    ∀ (mem : Nat → Nat) (i v j : Nat),
      bufAfter mem (stores ++ [(i, v)]) j = if j = i then v else bufAfter mem stores j := by
  induction stores with
  | nil => intro mem i v j; simp [bufAfter, Function.update_apply]
  | cons p stores ih => intro mem i v j; obtain ⟨a, w⟩ := p; simpa [bufAfter] using ih _ i v j

theorem bufPrefix_length (mem : Nat → Nat) (n : Nat) : (bufPrefix mem n).length = n := by
  simp [bufPrefix]

theorem bufPrefix_succ (mem : Nat → Nat) (n : Nat) :
    bufPrefix mem (n + 1) = bufPrefix mem n ++ [mem n] := by
  simp [bufPrefix, List.range_succ]

theorem bufPrefix_congr (mem mem' : Nat → Nat) (n : Nat) (h : ∀ j, j < n → mem j = mem' j) :
    bufPrefix mem n = bufPrefix mem' n := by
  unfold bufPrefix
  apply List.map_congr_left
  intro j hj
  exact h j (List.mem_range.1 hj)

theorem bufPrefix_dropLast (mem : Nat → Nat) (k : List Nat)
    (h : bufPrefix mem k.length = k) : bufPrefix mem k.dropLast.length = k.dropLast := by
  rcases List.eq_nil_or_concat k with hk | ⟨l, a, hk⟩
  · subst hk; simp [bufPrefix]
  · subst hk
    rw [List.concat_eq_append] at h ⊢
    rw [List.length_append, List.length_singleton, bufPrefix_succ] at h
    rw [List.dropLast_concat]
    have hl : (bufPrefix mem l.length).length = l.length := bufPrefix_length _ _
    exact (List.append_inj h hl).1

theorem bufPrefix_store_above (mem : Nat → Nat) (stores : List (Nat × Nat)) (n i v : Nat)
    (h : n ≤ i) :
    bufPrefix (bufAfter mem (stores ++ [(i, v)])) n = bufPrefix (bufAfter mem stores) n := by
  apply bufPrefix_congr
  intro j hj
  rw [bufAfter_append, if_neg (by omega)]

theorem bufPrefix_store_next (mem : Nat → Nat) (stores : List (Nat × Nat)) (kept : List Nat)
    (b : Nat) (h : bufPrefix (bufAfter mem stores) kept.length = kept) :
    bufPrefix (bufAfter mem (stores ++ [(kept.length, b)])) (kept ++ [b]).length
      = kept ++ [b] := by
  rw [List.length_append, List.length_singleton, bufPrefix_succ, bufAfter_append_self,
    bufPrefix_store_above _ _ _ _ _ (Nat.le_refl _), h]

theorem editLine_length_le : ∀ (inp kept : List Nat),
    (editLine kept inp).length ≤ kept.length + inp.length := by
  intro inp
  induction inp with
  | nil => intro kept; simp [editLine]
  | cons b inp ih =>
    intro kept
    simp only [editLine]
    split
    · have := ih kept.dropLast; simp at this ⊢; omega
    · have := ih (kept ++ [b]); simp at this ⊢; omega

/-- The read loop on a run of ordinary bytes and backspaces, none of which is
discarded, edits the kept bytes as `editLine` says. -/
theorem uart_gets_loop_edit (pcBuf : Nat → Nat) (ui32Len : Nat) (rest : List Nat) :
    ∀ (inp kept : List Nat) (stores : List (Nat × Nat)) (bLastWasCR : Bool) (tx : List Nat),
      (∀ b ∈ inp, b < 256 ∧ b ≠ 10 ∧ b ≠ 13 ∧ b ≠ 27) →
      (∀ p, p <+: inp → (editLine kept p).length ≤ ui32Len) →
      bufPrefix (bufAfter pcBuf stores) kept.length = kept →
      (∀ p ∈ stores, p.2 ≠ 8) →
      ∃ (stores1 : List (Nat × Nat)) (tx1 : List Nat),
        uart_gets_loop ui32Len (inp ++ rest) stores kept.length bLastWasCR tx
            = uart_gets_loop ui32Len rest stores1 (editLine kept inp).length bLastWasCR tx1
          ∧ bufPrefix (bufAfter pcBuf stores1) (editLine kept inp).length = editLine kept inp
          ∧ ∀ p ∈ stores1, p.2 ≠ 8 := by
  intro inp
  induction inp with
  | nil => intro kept stores f tx _ _ hk hs; exact ⟨stores, tx, rfl, hk, hs⟩
  | cons b inp ih =>
    intro kept stores f tx hb hp hk hs
    obtain ⟨hb256, hb10, hb13, hb27⟩ := hb b (List.mem_cons_self _ _)
    have hmod : b % 256 = b := Nat.mod_eq_of_lt hb256
    have hb' : ∀ c ∈ inp, c < 256 ∧ c ≠ 10 ∧ c ≠ 13 ∧ c ≠ 27 :=
      fun c hc => hb c (List.mem_cons_of_mem _ hc)
    by_cases h8 : b = 8
    · have hp' : ∀ p, p <+: inp → (editLine kept.dropLast p).length ≤ ui32Len := by
        intro p hpp
        have := hp (b :: p) ((List.prefix_cons_inj b).2 hpp)
        simpa [editLine, h8] using this
      obtain ⟨stores1, tx1, h1, h2, h3⟩ :=
        ih kept.dropLast stores f (if kept.length ≠ 0 then tx ++ [8, 32, 8] else tx) hb' hp'
          (bufPrefix_dropLast _ _ hk) hs
      refine ⟨stores1, tx1, ?_, ?_, h3⟩
      · rw [List.cons_append, uart_gets_loop_backspace _ _ _ _ _ _ _ (by omega)]
        simp only [editLine, h8, if_true]
        rw [← h1, List.length_dropLast]
        by_cases h0 : kept.length = 0
        · simp [h0]
        · simp [h0]
      · simpa [editLine, h8] using h2
    · have hp' : ∀ p, p <+: inp → (editLine (kept ++ [b]) p).length ≤ ui32Len := by
        intro p hpp
        have := hp (b :: p) ((List.prefix_cons_inj b).2 hpp)
        simpa [editLine, h8] using this
      have hlt : kept.length < ui32Len := by
        have := hp' [] List.nil_prefix
        simp [editLine] at this
        omega
      have hk' : bufPrefix (bufAfter pcBuf (stores ++ [(kept.length, b)])) (kept ++ [b]).length
          = kept ++ [b] := bufPrefix_store_next _ _ _ _ hk
      have hs' : ∀ p ∈ stores ++ [(kept.length, b)], p.2 ≠ 8 := by
        intro p hpm
        rcases List.mem_append.1 hpm with hpm | hpm
        · exact hs p hpm
        · simp at hpm; subst hpm; exact h8
      obtain ⟨stores1, tx1, h1, h2, h3⟩ :=
        ih (kept ++ [b]) (stores ++ [(kept.length, b)]) f (tx ++ [b]) hb' hp' hk' hs'
      refine ⟨stores1, tx1, ?_, ?_, h3⟩
      · rw [List.cons_append,
          uart_gets_loop_ordinary _ _ _ _ _ _ _ (by omega) (by omega) (by omega) (by omega),
          if_pos hlt, hmod]
        simp only [editLine, h8, if_false]
        rw [← h1, List.length_append, List.length_singleton]
      · simpa [editLine, h8] using h2

/-- C3: for an input of ordinary bytes and backspaces followed by one
terminator (CR, ESC, or LF while the flag is clear), read with a capacity
within which no byte is discarded (the line kept after every prefix of the
input fits in `ui32Len - 1` bytes), `uart_gets` returns, the bytes it leaves at
indices `0 .. n - 1` are the line edited left to right as `editLine` says,
followed by the terminating 0, the returned count `n` is the length of that
line, and no assignment stores a backspace. -/
theorem uart_gets_edits_line (pcBuf : Nat → Nat) (ui32Len : Nat) (bLastWasCR : Bool)
    (inp : List Nat) (term : Nat) (tx : List Nat)
    (hcap : 1 ≤ ui32Len) (hsize : ui32Len < 2 ^ 31)
    (hinp : ∀ b ∈ inp, b < 256 ∧ b ≠ 10 ∧ b ≠ 13 ∧ b ≠ 27)
    (hterm : term = 13 ∨ term = 27 ∨ (term = 10 ∧ bLastWasCR = false))
    (hfit : ∀ p, p <+: inp → (editLine [] p).length ≤ ui32Len - 1) :
    ∃ r : GetsResult, uart_gets (some pcBuf) ui32Len bLastWasCR (inp ++ [term]) tx = some r ∧
      r.ret = ((editLine [] inp).length : Int) ∧
      bufPrefix (bufAfter pcBuf r.stores) (editLine [] inp).length = editLine [] inp ∧
      bufAfter pcBuf r.stores (editLine [] inp).length = 0 ∧
      (∀ p ∈ r.stores, p.2 ≠ 8) ∧ r.rx = [] := by
  have hlen : (ui32Len + 2 ^ 32 - 1) % 2 ^ 32 = ui32Len - 1 := by omega
  obtain ⟨stores1, tx1, h1, h2, h3⟩ :=
    uart_gets_loop_edit pcBuf (ui32Len - 1) [term] inp [] [] bLastWasCR tx hinp hfit
      (by simp [bufPrefix]) (by simp)
  have hn : (editLine [] inp).length ≤ ui32Len - 1 := hfit inp (List.prefix_refl _)
  have hexit : ∃ f, uart_gets_loop (ui32Len - 1) [term] stores1 (editLine [] inp).length
      bLastWasCR tx1 = some ⟨(editLine [] inp).length, stores1, f, [], tx1⟩ := by
    rcases hterm with h | h | ⟨h, hf⟩
    · exact ⟨true, uart_gets_loop_cr _ _ _ _ _ _ _ (by omega)⟩
    · exact ⟨bLastWasCR, uart_gets_loop_esc _ _ _ _ _ _ _ (by omega)⟩
    · subst hf; exact ⟨false, uart_gets_loop_lf _ _ _ _ _ _ (by omega)⟩
  obtain ⟨f, hexit⟩ := hexit
  simp only [List.length_nil] at h1
  refine ⟨⟨((editLine [] inp).length : Int), stores1 ++ [((editLine [] inp).length, 0)], f, [],
    tx1 ++ [13, 10]⟩, ?_, rfl, ?_, bufAfter_append_self _ _ _ _, ?_, rfl⟩
  · simp only [uart_gets, hlen, h1, hexit, uart_puts_newline]
    rw [toInt32_of_lt _ (by omega)]
  · rw [bufPrefix_store_above _ _ _ _ _ (Nat.le_refl _), h2]
  · intro p hp
    rcases List.mem_append.1 hp with hp | hp
    · exact h3 p hp
    · simp at hp; subst hp; simp

theorem uart_gets_edits_line_witness :
    ∃ r : GetsResult, uart_gets (some fun _ => 255) 8 false ([97, 98, 8, 99] ++ [13]) [] = some r ∧
      r.ret = 2 ∧
      bufPrefix (bufAfter (fun _ => 255) r.stores) 2 = [97, 99] ∧
      bufAfter (fun _ => 255) r.stores 2 = 0 ∧
      (∀ p ∈ r.stores, p.2 ≠ 8) ∧ r.rx = [] :=
  uart_gets_edits_line (fun _ => 255) 8 false [97, 98, 8, 99] 13 [] (by decide) (by norm_num)
    (by decide) (by decide)
    (fun p hp => by
      have h4 : p.length ≤ 4 := hp.length_le
      have := editLine_length_le p []
      simp at this ⊢
      omega)

/-! ## Line reader: runs of ordinary bytes and the CR LF pair -/

/-- A run of ordinary bytes that fits is stored at consecutive indices and
echoed byte for byte. -/
theorem uart_gets_loop_run (ui32Len : Nat) (rest : List Nat) :
    ∀ (line : List Nat) (stores : List (Nat × Nat)) (ui32Count : Nat) (bLastWasCR : Bool)
      (tx : List Nat),
      (∀ b ∈ line, ordinary b) → ui32Count + line.length ≤ ui32Len →
      uart_gets_loop ui32Len (line ++ rest) stores ui32Count bLastWasCR tx
        = uart_gets_loop ui32Len rest (stores ++ line.enumFrom ui32Count)
            (ui32Count + line.length) bLastWasCR (tx ++ line) := by
  intro line
  induction line with
  | nil => intro stores c f tx _ _; simp
  | cons b line ih =>
    intro stores c f tx hb hfit
    obtain ⟨h256, h8, h10, h13, h27⟩ := hb b (List.mem_cons_self _ _)
    have hmod : b % 256 = b := Nat.mod_eq_of_lt h256
    simp only [List.length_cons] at hfit
    rw [List.cons_append,
      uart_gets_loop_ordinary _ _ _ _ _ _ _ (by omega) (by omega) (by omega) (by omega),
      if_pos (by omega), hmod,
      ih _ _ _ _ (fun c hc => hb c (List.mem_cons_of_mem _ hc)) (by omega)]
    simp [List.enumFrom_cons, Nat.add_assoc, Nat.add_comm 1]

theorem bufPrefix_enumFrom (mem : Nat → Nat) :
    ∀ (line kept : List Nat) (stores : List (Nat × Nat)),
      bufPrefix (bufAfter mem stores) kept.length = kept →
      bufPrefix (bufAfter mem (stores ++ line.enumFrom kept.length)) (kept.length + line.length)
        = kept ++ line := by
  intro line
  induction line with
  | nil => intro kept stores h; simpa using h
  | cons b line ih =>
    intro kept stores h
    have := ih (kept ++ [b]) (stores ++ [(kept.length, b)]) (bufPrefix_store_next _ _ _ _ h)
    simpa [List.enumFrom_cons, Nat.add_assoc, Nat.add_comm 1] using this

/-- One call of `uart_gets` on a line of ordinary bytes that fits, from the
first byte of the line to its terminator. -/
theorem uart_gets_line (pcBuf : Nat → Nat) (ui32Len : Nat) (bLastWasCR : Bool)
    (line : List Nat) (term : Nat) (rest tx : List Nat)
    (hsize : ui32Len < 2 ^ 31) (hline : ∀ b ∈ line, ordinary b) (hfit : line.length < ui32Len)
    (hterm : term = 13 ∨ term = 27 ∨ (term = 10 ∧ bLastWasCR = false)) :
    uart_gets (some pcBuf) ui32Len bLastWasCR (line ++ term :: rest) tx
      = some ⟨(line.length : Int), line.enumFrom 0 ++ [(line.length, 0)],
          if term = 13 then true else bLastWasCR, rest, tx ++ line ++ [13, 10]⟩ := by
  have hlen : (ui32Len + 2 ^ 32 - 1) % 2 ^ 32 = ui32Len - 1 := by omega
  have hrun := uart_gets_loop_run (ui32Len - 1) (term :: rest) line [] 0 bLastWasCR tx hline
    (by omega)
  simp only [Nat.zero_add, List.nil_append] at hrun
  have hexit : uart_gets_loop (ui32Len - 1) (term :: rest) (line.enumFrom 0) line.length
      bLastWasCR (tx ++ line)
      = some ⟨line.length, line.enumFrom 0, if term = 13 then true else bLastWasCR, rest,
          tx ++ line⟩ := by
    rcases hterm with h | h | ⟨h, hf⟩
    · subst h; simpa using uart_gets_loop_cr _ 13 _ _ _ _ _ (by decide)
    · subst h; simpa using uart_gets_loop_esc _ 27 _ _ _ _ _ (by decide)
    · subst h; subst hf; simpa using uart_gets_loop_lf _ 10 _ _ _ _ (by decide)
  simp only [uart_gets, hlen, hrun, hexit, uart_puts_newline]
  rw [toInt32_of_lt _ (by omega)]

/-- C4: a CR LF pair is one line terminator.  For lines `line1`, `line2` of
ordinary bytes, each shorter than the capacity of its call, and a terminator
`term`, two successive calls of `uart_gets` on the stream
`line1 CR LF line2 term` return `line1` with count `|line1|` and then `line2`
with count `|line2|`; the second call consumes the LF of the pair without
storing or echoing it and without returning an empty line. -/
theorem uart_gets_crlf_pair (pcBuf1 pcBuf2 : Nat → Nat) (ui32Len1 ui32Len2 : Nat)
    (bLastWasCR : Bool) (line1 line2 : List Nat) (term : Nat) (tx : List Nat)
    (hsize1 : ui32Len1 < 2 ^ 31) (hsize2 : ui32Len2 < 2 ^ 31)
    (hline1 : ∀ b ∈ line1, ordinary b) (hline2 : ∀ b ∈ line2, ordinary b)
    (hfit1 : line1.length < ui32Len1) (hfit2 : line2.length < ui32Len2)
    (hterm : term = 13 ∨ term = 10 ∨ term = 27) :
    ∃ r1 r2 : GetsResult,
      uart_gets (some pcBuf1) ui32Len1 bLastWasCR (line1 ++ [13, 10] ++ line2 ++ [term]) tx
          = some r1 ∧
      uart_gets (some pcBuf2) ui32Len2 r1.bLastWasCR r1.rx r1.tx = some r2 ∧
      r1.ret = (line1.length : Int) ∧
      bufPrefix (bufAfter pcBuf1 r1.stores) line1.length = line1 ∧
      bufAfter pcBuf1 r1.stores line1.length = 0 ∧
      r1.rx = 10 :: line2 ++ [term] ∧
      r2.ret = (line2.length : Int) ∧
      bufPrefix (bufAfter pcBuf2 r2.stores) line2.length = line2 ∧
      bufAfter pcBuf2 r2.stores line2.length = 0 ∧
      r2.stores = line2.enumFrom 0 ++ [(line2.length, 0)] ∧
      r2.tx = r1.tx ++ line2 ++ [13, 10] ∧ r2.rx = [] := by
  have hpre : ∀ (mem : Nat → Nat) (line : List Nat),
      bufPrefix (bufAfter mem (line.enumFrom 0 ++ [(line.length, 0)])) line.length = line := by
    intro mem line
    rw [bufPrefix_store_above _ _ _ _ _ (Nat.le_refl _)]
    simpa using bufPrefix_enumFrom mem line [] [] (by simp [bufPrefix])
  have h1 := uart_gets_line pcBuf1 ui32Len1 bLastWasCR line1 13 (10 :: line2 ++ [term]) tx
    hsize1 hline1 hfit1 (Or.inl rfl)
  have hsw : uart_gets (some pcBuf2) ui32Len2 true (10 :: (line2 ++ [term]))
        (tx ++ line1 ++ [13, 10])
      = uart_gets (some pcBuf2) ui32Len2 false (line2 ++ [term]) (tx ++ line1 ++ [13, 10]) := by
    simp only [uart_gets]
    rw [uart_gets_loop_swallow _ 10 _ _ _ _ (by decide)]
  have h2 := uart_gets_line pcBuf2 ui32Len2 false line2 term [] (tx ++ line1 ++ [13, 10])
    hsize2 hline2 hfit2 (by rcases hterm with h | h | h <;> simp [h])
  refine ⟨⟨(line1.length : Int), line1.enumFrom 0 ++ [(line1.length, 0)], true,
      10 :: (line2 ++ [term]), tx ++ line1 ++ [13, 10]⟩,
    ⟨(line2.length : Int), line2.enumFrom 0 ++ [(line2.length, 0)],
      if term = 13 then true else false, [], tx ++ line1 ++ [13, 10] ++ line2 ++ [13, 10]⟩,
    ?_, ?_, rfl, ?_, ?_, rfl, rfl, ?_, ?_, rfl, rfl, rfl⟩
  · simpa using h1
  · rw [hsw]
    exact h2
  · exact hpre _ _
  · exact bufAfter_append_self _ _ _ _
  · exact hpre _ _
  · exact bufAfter_append_self _ _ _ _

theorem uart_gets_crlf_pair_witness :
    ∃ r1 r2 : GetsResult,
      uart_gets (some fun _ => 255) 4 false ([104, 105] ++ [13, 10] ++ [121, 111, 117] ++ [10]) []
          = some r1 ∧
      uart_gets (some fun _ => 255) 4 r1.bLastWasCR r1.rx r1.tx = some r2 ∧
      r1.ret = 2 ∧
      bufPrefix (bufAfter (fun _ => 255) r1.stores) 2 = [104, 105] ∧
      bufAfter (fun _ => 255) r1.stores 2 = 0 ∧
      r1.rx = 10 :: [121, 111, 117] ++ [10] ∧
      r2.ret = 3 ∧
      bufPrefix (bufAfter (fun _ => 255) r2.stores) 3 = [121, 111, 117] ∧
      bufAfter (fun _ => 255) r2.stores 3 = 0 ∧
      r2.stores = [(0, 121), (1, 111), (2, 117), (3, 0)] ∧
      r2.tx = r1.tx ++ [121, 111, 117] ++ [13, 10] ∧ r2.rx = [] :=
  uart_gets_crlf_pair (fun _ => 255) (fun _ => 255) 4 4 false [104, 105] [121, 111, 117] 10 []
    (by norm_num) (by norm_num) (by decide) (by decide) (by decide) (by decide) (by decide)

/-! ## Line reader: the flag after a carriage return -/

/-- C5, evaluated on the failing input.  A first call ends on CR and leaves the
flag set.  The next call receives `b`, LF, `c`, CR: the LF follows `b`, not a
CR, yet it is consumed without ending the line, and the call returns the line
`bc` of length 2 with the flag still set. -/
theorem uart_gets_stale_cr_flag :
    uart_gets (some fun _ => 0) 8 false [13, 98, 10, 99, 13] []
        = some ⟨0, [(0, 0)], true, [98, 10, 99, 13], [13, 10]⟩
      ∧ uart_gets (some fun _ => 0) 8 true [98, 10, 99, 13] [13, 10]
        = some ⟨2, [(0, 98), (1, 99), (2, 0)], true, [], [13, 10, 98, 99, 13, 10]⟩ := by
  decide

/-! ## Format engine: literal text -/

theorem scan_literal_run (rest : List Nat) (c : Nat) (hc : c = 37 ∨ c = 0) :
    ∀ s : List Nat, (∀ b ∈ s, b ≠ 0 ∧ b ≠ 37) → scan_literal (s ++ c :: rest) = some s.length := by
  intro s
  induction s with
  | nil => intro _; rcases hc with h | h <;> simp [scan_literal, h]
  | cons b s ih =>
    intro hb
    obtain ⟨h0, h37⟩ := hb b (List.mem_cons_self _ _)
    simp [scan_literal, h0, h37, ih (fun c hc => hb c (List.mem_cons_of_mem _ hc))]

theorem uart_vprintf_loop_nul (fuel : Nat) (rest : List Nat) (vaArgP : List VaArg)
    (tx : List Nat) : uart_vprintf_loop (fuel + 1) (0 :: rest) vaArgP tx = .ok (vaArgP, tx) := by
  simp [uart_vprintf_loop]

/-- One iteration of the `while(*pcString)` loop on a byte that is not NUL. -/
theorem uart_vprintf_loop_step (fuel : Nat) (c : Nat) (s : List Nat) (vaArgP : List VaArg)
    (tx : List Nat) (hc : c ≠ 0) :
    uart_vprintf_loop (fuel + 1) (c :: s) vaArgP tx
      = match scan_literal (c :: s) with
        | none => .error .read_past_end
        | some ui32Idx =>
          match uart_write (some (c :: s)) ui32Idx tx with
          | .error e => .error e
          | .ok (_, tx1) =>
            match (c :: s).drop ui32Idx with
            | 37 :: pcString1 =>
              match again pcString1 0 32 vaArgP tx1 with
              | .error e => .error e
              | .ok (pcString2, vaArgP2, tx2) => uart_vprintf_loop fuel pcString2 vaArgP2 tx2
            | pcString1 => uart_vprintf_loop fuel pcString1 vaArgP tx1 := by
  rw [uart_vprintf_loop, if_pos hc]

/-- C6: for a template without a `'%'` byte, `uart_vprintf` transmits the
bytes of the template in order with a carriage return inserted before each line
feed, and reads no argument. -/
theorem uart_vprintf_literal (s rest : List Nat) (vaArgP : List VaArg) (tx : List Nat)
    (hs : ∀ b ∈ s, b < 256 ∧ b ≠ 0 ∧ b ≠ 37) :
    uart_vprintf (some (s ++ 0 :: rest)) vaArgP tx = .ok (vaArgP, tx ++ crlf s) := by
  cases s with
  | nil => simp [uart_vprintf, uart_vprintf_loop, crlf]
  | cons b s =>
    obtain ⟨_, h0, _⟩ := hs b (List.mem_cons_self _ _)
    have hscan := scan_literal_run rest 0 (Or.inr rfl) (b :: s) (fun c hc => (hs c hc).2)
    have hwr := uart_write_leading (b :: s) (0 :: rest) tx (fun c hc => (hs c hc).1)
    have hdrop : ((b :: s) ++ 0 :: rest).drop (b :: s).length = 0 :: rest :=
      List.drop_left _ _
    simp only [uart_vprintf, List.length_append, List.length_cons, List.cons_append]
      at hscan hwr hdrop ⊢
    rw [uart_vprintf_loop_step _ _ _ _ _ h0]
    simp only [hscan, hwr, hdrop, List.length_cons]
    exact uart_vprintf_loop_nul _ _ _ _

theorem uart_vprintf_literal_witness :
    uart_vprintf (some ([104, 105, 10] ++ 0 :: [])) [.word 7] [62]
      = .ok ([.word 7], [62] ++ crlf [104, 105, 10]) :=
  uart_vprintf_literal [104, 105, 10] [] [.word 7] [62] (by decide)

/-! ## Format engine: numeric conversion -/

theorem scale_cond (b v idx : Nat) (hb : 0 < b) (hv : v < 2 ^ 32) :
    ((idx * b) % 2 ^ 32 ≤ v ∧ (idx * b) % 2 ^ 32 / b = idx) ↔ idx * b ≤ v := by
  constructor
  · rintro ⟨h1, h2⟩
    have h3 := Nat.div_mul_le_self ((idx * b) % 2 ^ 32) b
    rw [h2] at h3
    omega
  · intro h
    have hm : (idx * b) % 2 ^ 32 = idx * b := Nat.mod_eq_of_lt (by omega)
    rw [hm]
    exact ⟨h, Nat.mul_div_cancel _ hb⟩

theorem convert_scale_eq (b v : Nat) (hb : 1 < b) (hv : v < 2 ^ 32) :
    ∀ (fuel k count : Nat), k ≤ Nat.log b v → Nat.log b v - k < fuel → count < 2 ^ 32 →
      convert_scale fuel b v (b ^ k) count
        = some (b ^ Nat.log b v,
            (count + 2 ^ 32 * (Nat.log b v - k) - (Nat.log b v - k)) % 2 ^ 32) := by
  intro fuel
  induction fuel with
  | zero => intro k count _ h _; omega
  | succ fuel ih =>
    intro k count hk hf hc
    rw [convert_scale]
    by_cases hlt : k < Nat.log b v
    · have hv0 : v ≠ 0 := by
        rintro rfl
        simp at hlt
      have hle : b ^ k * b ≤ v := by
        rw [← pow_succ]
        exact (Nat.pow_le_iff_le_log hb hv0).2 hlt
      rw [if_pos ((scale_cond b v _ (by omega) hv).2 hle)]
      have hm : (b ^ k * b) % 2 ^ 32 = b ^ (k + 1) := by
        rw [Nat.mod_eq_of_lt (by omega), pow_succ]
      rw [hm, ih (k + 1) _ hlt (by omega) (Nat.mod_lt _ (by norm_num))]
      have hcount : ((count + 2 ^ 32 - 1) % 2 ^ 32 + 2 ^ 32 * (Nat.log b v - (k + 1))
            - (Nat.log b v - (k + 1))) % 2 ^ 32
          = (count + 2 ^ 32 * (Nat.log b v - k) - (Nat.log b v - k)) % 2 ^ 32 := by
        omega
      rw [hcount]
    · have hk' : k = Nat.log b v := by omega
      have hgt : ¬ b ^ k * b ≤ v := by
        rw [← pow_succ, hk']
        exact Nat.not_le.2 (Nat.lt_pow_succ_log_self hb v)
      rw [if_neg (fun h => hgt ((scale_cond b v _ (by omega) hv).1 h))]
      subst hk'
      simp only [Nat.sub_self, Nat.mul_zero, Nat.add_zero, Nat.sub_zero, Nat.mod_eq_of_lt hc]

theorem digits_eq_range (b : Nat) (hb : 1 < b) :
    ∀ (k v : Nat), b ^ k ≤ v → v < b ^ (k + 1) →
      Nat.digits b v = (List.range (k + 1)).map fun j => v / b ^ j % b := by
  intro k
  induction k with
  | zero =>
    intro v h1 h2
    simp at h1 h2
    rw [Nat.digits_of_lt b v (by omega) h2]
    simp [List.range_succ, Nat.mod_eq_of_lt h2]
  | succ k ih =>
    intro v h1 h2
    have hv0 : 0 < v := lt_of_lt_of_le (pow_pos (by omega) _) h1
    have hd1 : b ^ k ≤ v / b := by
      rw [Nat.le_div_iff_mul_le (by omega), ← pow_succ]; exact h1
    have hd2 : v / b < b ^ (k + 1) := by
      rw [Nat.div_lt_iff_lt_mul (by omega), ← pow_succ]; exact h2
    rw [Nat.digits_def' hb hv0, ih (v / b) hd1 hd2, List.range_succ_eq_map (k + 1),
      List.map_cons, List.map_map]
    simp only [pow_zero, Nat.div_one, List.cons.injEq, true_and]
    apply List.map_congr_left
    intro j _
    simp only [Function.comp, Nat.succ_eq_add_one, pow_succ, Nat.div_div_eq_div_mul]
    rw [Nat.mul_comm b]

theorem convert_digits_eq (b v : Nat) (hb : 1 < b) :
    ∀ (k fuel : Nat) (pcBuf : List Nat), k + 1 < fuel →
      convert_digits fuel b v (b ^ k) pcBuf
        = some (pcBuf ++ (List.range (k + 1)).reverse.map
            fun j => g_pcHex.getD (v / b ^ j % b) 0) := by
  intro k
  induction k with
  | zero =>
    intro fuel pcBuf hf
    obtain ⟨f, rfl⟩ : ∃ f, fuel = f + 2 := ⟨fuel - 2, by omega⟩
    simp [convert_digits, Nat.div_eq_of_lt hb, List.range_succ]
  | succ k ih =>
    intro fuel pcBuf hf
    obtain ⟨f, rfl⟩ : ∃ f, fuel = f + 1 := ⟨fuel - 1, by omega⟩
    have hne : b ^ (k + 1) ≠ 0 := (pow_pos (by omega : 0 < b) _).ne'
    rw [convert_digits, if_pos hne]
    have hdiv : b ^ (k + 1) / b = b ^ k := by
      rw [pow_succ, Nat.mul_div_cancel _ (by omega)]
    rw [hdiv, ih f _ (by omega), List.range_succ (n := k + 1)]
    simp

theorem digitText_eq_range (b v : Nat) (hb : 1 < b) :
    digitText b v
      = (List.range (Nat.log b v + 1)).reverse.map fun j => g_pcHex.getD (v / b ^ j % b) 0 := by
  unfold digitText
  by_cases hv : v = 0
  · subst hv; simp [List.range_succ, g_pcHex]
  · rw [if_neg hv, digits_eq_range b hb (Nat.log b v) v (Nat.pow_log_le_self b hv)
      (Nat.lt_pow_succ_log_self hb v), ← List.map_reverse, List.map_map]
    rfl

theorem digitText_length (b v : Nat) (hb : 1 < b) :
    (digitText b v).length = Nat.log b v + 1 := by
  rw [digitText_eq_range b v hb]; simp

theorem convert_fill_eq (cFill : Nat) :
    ∀ (n : Nat) (pcBuf : List Nat), convert_fill n cFill pcBuf = pcBuf ++ List.replicate n cFill := by
  intro n
  induction n with
  | zero => intro pcBuf; simp [convert_fill]
  | succ n ih =>
    intro pcBuf
    rw [convert_fill, ih, List.replicate_succ, List.append_assoc]
    rfl

theorem log_lt_32 (b v : Nat) (hb : 1 < b) (hv : v < 2 ^ 32) : Nat.log b v < 32 := by
  by_cases h0 : v = 0
  · subst h0; simp
  · apply Nat.log_lt_of_lt_pow h0
    calc v < 2 ^ 32 := hv
      _ ≤ b ^ 32 := Nat.pow_le_pow_left (by omega) 32

/-- The bytes the conversion assigns to `pcBuf`: a minus sign ahead of zero
fill, the fill characters, a minus sign behind space fill, and the digits. -/
theorem convert_eq (v b count neg cFill : Nat) (hb : 1 < b) (hv : v < 2 ^ 32)
    (hcount : count < 2 ^ 32) :
    convert v b count neg cFill
      = .ok ((if neg ≠ 0 ∧ cFill = 48 then [45] else [])
          ++ (if 1 < fieldCount (digitText b v).length (if neg ≠ 0 then 1 else 0) count
                ∧ fieldCount (digitText b v).length (if neg ≠ 0 then 1 else 0) count < 16
              then List.replicate
                (fieldCount (digitText b v).length (if neg ≠ 0 then 1 else 0) count - 1) cFill
              else [])
          ++ (if neg ≠ 0 ∧ ¬ cFill = 48 then [45] else [])
          ++ digitText b v) := by
  have hlog := log_lt_32 b v hb hv
  have hscale := convert_scale_eq b v hb hv 32 0 count (Nat.zero_le _) (by omega) hcount
  rw [pow_zero, Nat.sub_zero] at hscale
  have hfc : ∀ n : Nat, n ≤ 1 →
      fieldCount (digitText b v).length n count
        = ((count + 2 ^ 32 * Nat.log b v - Nat.log b v) % 2 ^ 32 + 2 ^ 32 * n - n) % 2 ^ 32 := by
    intro n hn
    rw [digitText_length b v hb]
    unfold fieldCount
    omega
  unfold convert
  rw [hscale]
  simp only []
  rw [convert_digits_eq b v hb (Nat.log b v) 33 _ (by omega), ← digitText_eq_range b v hb]
  by_cases hneg : neg = 0
  · subst hneg
    have h0 := hfc 0 (by omega)
    simp only [Nat.mul_zero, Nat.add_zero, Nat.sub_zero, Nat.mod_mod] at h0
    simp only [ne_eq, not_true_eq_false, false_and, if_false, h0, convert_fill_eq,
      List.nil_append, List.append_nil]
  · have h1 := hfc 1 (by omega)
    have h1' : ((count + 2 ^ 32 * Nat.log b v - Nat.log b v) % 2 ^ 32 + 2 ^ 32 - 1) % 2 ^ 32
        = fieldCount (digitText b v).length 1 count := by rw [h1, Nat.mul_one]
    by_cases hf : cFill = 48
    · simp only [ne_eq, hneg, not_false_eq_true, hf, true_and, and_self, not_true_eq_false,
        and_false, if_true, if_false, h1', convert_fill_eq, List.append_nil]
      split <;> simp
    · simp only [ne_eq, hneg, not_false_eq_true, hf, true_and, and_false, and_true, if_true,
        if_false, h1', convert_fill_eq, List.nil_append]

/-! ## Format engine: a numeric directive in a template -/

theorem crlf_id : ∀ s : List Nat, (∀ c ∈ s, c ≠ 10) → crlf s = s := by
  intro s
  induction s with
  | nil => intro _; rfl
  | cons c s ih =>
    intro h
    rw [crlf, if_neg (h c (List.mem_cons_self _ _)),
      ih (fun x hx => h x (List.mem_cons_of_mem _ hx))]

/-- Writing a whole buffer that holds no line feed. -/
theorem uart_write_plain (s tx : List Nat) (hs : ∀ c ∈ s, c < 256 ∧ c ≠ 10) :
    uart_write (some s) s.length tx = .ok (toInt32 s.length, tx ++ s) := by
  have h := uart_write_leading s [] tx (fun c hc => (hs c hc).1)
  rw [List.append_nil, crlf_id s (fun c hc => (hs c hc).2)] at h
  exact h

theorem again_width (c : Nat) (s : List Nat) (vaArgP : List VaArg) (tx : List Nat) :
    ∀ (ds : List Nat) (ui32Count cFill : Nat), (∀ x ∈ ds, 48 ≤ x ∧ x ≤ 57) →
      again (ds ++ c :: s) ui32Count cFill vaArgP tx
        = again (c :: s) (width_scan ds ui32Count cFill).1 (width_scan ds ui32Count cFill).2
            vaArgP tx := by
  intro ds
  induction ds with
  | nil => intro _ _ _; rfl
  | cons x ds ih =>
    intro count fill h
    have hx := h x (List.mem_cons_self _ _)
    rw [List.cons_append, again, if_pos hx, ih _ _ (fun y hy => h y (List.mem_cons_of_mem _ hy))]
    rfl

/-- A numeric directive reads one argument word and goes to `convert:`. -/
theorem directive_numeric (c : Nat) (s : List Nat) (ui32Count cFill v : Nat)
    (vaArgP : List VaArg) (tx : List Nat) (hc : numeric c) (hv : v < 2 ^ 32) :
    directive c s ui32Count cFill (.word v :: vaArgP) tx
      = match convert_write (numMag c v) (numBase c) ui32Count (numNeg c v) cFill tx with
        | .error e => .error e
        | .ok tx1 => .ok (vaArgP, tx1) := by
  have hmod : v % 4294967296 = v := Nat.mod_eq_of_lt hv
  unfold numeric at hc
  by_cases hneg : 2147483648 ≤ v <;>
    rcases hc with h | h | h | h | h | h <;> subst h <;>
    simp [directive, va_arg_uint32, hmod, numMag, numBase, numNeg, hneg]

/-- The directive code leaves `pcString` strictly further on. -/
theorem again_advances : ∀ (s : List Nat) (ui32Count cFill : Nat) (vaArgP : List VaArg)
    (tx s1 : List Nat) (vaArgP1 : List VaArg) (tx1 : List Nat),
    again s ui32Count cFill vaArgP tx = .ok (s1, vaArgP1, tx1) → s1.length < s.length := by
  intro s
  induction s with
  | nil => intro _ _ _ _ _ _ _ h; simp [again] at h
  | cons c s ih =>
    intro count fill ap tx s1 ap1 tx1 h
    rw [again] at h
    split at h
    · have := ih _ _ _ _ _ _ _ h
      simp only [List.length_cons]
      omega
    · split at h
      · simp at h
      · simp only [Except.ok.injEq, Prod.mk.injEq] at h
        rw [← h.1]
        simp

theorem scan_literal_le : ∀ (s : List Nat) (n : Nat), scan_literal s = some n → n < s.length := by
  intro s
  induction s with
  | nil => intro n h; simp [scan_literal] at h
  | cons c s ih =>
    intro n h
    rw [scan_literal] at h
    split at h
    · split at h
      · simp at h
      · rename_i m hm
        simp only [Option.some.injEq] at h
        have := ih m hm
        simp only [List.length_cons]
        omega
    · simp only [Option.some.injEq] at h
      subst h
      simp

/-- The bound on the iterations of the `while(*pcString)` loop is never
reached: a larger bound gives the same result. -/
theorem uart_vprintf_loop_fuel : ∀ (fuel : Nat) (s : List Nat) (vaArgP : List VaArg)
    (tx : List Nat), s.length + 1 ≤ fuel →
    uart_vprintf_loop fuel s vaArgP tx = uart_vprintf_loop (s.length + 1) s vaArgP tx := by
  intro fuel
  induction fuel using Nat.strong_induction_on with
  | _ fuel ih =>
    intro s ap tx hfuel
    obtain ⟨f, rfl⟩ : ∃ f, fuel = f + 1 := ⟨fuel - 1, by omega⟩
    cases s with
    | nil => simp [uart_vprintf_loop]
    | cons c s =>
      by_cases hc : c = 0
      · subst hc
        rw [uart_vprintf_loop_nul, List.length_cons, uart_vprintf_loop_nul]
      · rw [uart_vprintf_loop_step _ _ _ _ _ hc, List.length_cons,
          uart_vprintf_loop_step _ _ _ _ _ hc]
        simp only [List.length_cons] at hfuel
        have hboth : ∀ (p : List Nat) (ap1 : List VaArg) (tx1 : List Nat),
            p.length < s.length + 1 →
            uart_vprintf_loop f p ap1 tx1 = uart_vprintf_loop (s.length + 1) p ap1 tx1 := by
          intro p ap1 tx1 hp
          rw [ih f (by omega) p ap1 tx1 (by omega),
            ih (s.length + 1) (by omega) p ap1 tx1 (by omega)]
        cases hscan : scan_literal (c :: s) with
        | none => rfl
        | some n =>
          simp only []
          cases hwr : uart_write (some (c :: s)) n tx with
          | error e => rfl
          | ok r =>
            obtain ⟨ret, tx1⟩ := r
            simp only []
            have hdl : ((c :: s).drop n).length = (c :: s).length - n := List.length_drop _ _
            simp only [List.length_cons] at hdl
            split
            · rename_i p1 hp1
              have hp1len : p1.length < s.length + 1 := by
                have := congrArg List.length hp1
                rw [hdl] at this
                simp only [List.length_cons] at this
                omega
              cases hag : again p1 0 32 ap tx1 with
              | error e => rfl
              | ok r2 =>
                obtain ⟨p2, ap2, tx2⟩ := r2
                simp only []
                have hp2 := again_advances _ _ _ _ _ _ _ _ hag
                exact hboth p2 ap2 tx2 (by omega)
            · rename_i hne
              apply hboth
              cases n with
              | zero =>
                exfalso
                rw [scan_literal] at hscan
                split at hscan
                · split at hscan <;> simp at hscan
                · rename_i hcond
                  have h37 : c = 37 := by omega
                  subst h37
                  exact hne s (by simp)
              | succ n => rw [hdl]; omega

/-- A directive at the head of a template: once its code has run, the call
goes on as a call on the rest of the template. -/
theorem uart_vprintf_directive (s rest : List Nat) (vaArgP vaArgP1 : List VaArg)
    (tx tx1 : List Nat) (h : again s 0 32 vaArgP tx = .ok (rest, vaArgP1, tx1)) :
    uart_vprintf (some (37 :: s)) vaArgP tx = uart_vprintf (some rest) vaArgP1 tx1 := by
  have hw : uart_write (some (37 :: s)) 0 tx = .ok (0, tx) := by
    simp [uart_write, uart_write_loop, toInt32]
  have hadv := again_advances _ _ _ _ _ _ _ _ h
  simp only [uart_vprintf, List.length_cons]
  rw [uart_vprintf_loop_step _ _ _ _ _ (by decide)]
  simp only [scan_literal, ne_eq, not_true_eq_false, false_and, if_false, hw, List.drop_zero, h]
  exact uart_vprintf_loop_fuel _ _ _ _ (by omega)

theorem uart_vprintf_nul (rest : List Nat) (vaArgP : List VaArg) (tx : List Nat) :
    uart_vprintf (some (0 :: rest)) vaArgP tx = .ok (vaArgP, tx) := by
  simp only [uart_vprintf, List.length_cons]
  exact uart_vprintf_loop_nul _ _ _ _

/-- A numeric directive with the width digits `ds`, from the label `again:`:
the code reads the argument word, transmits the bytes of the conversion,
provided they fit the array, and leaves `pcString` behind the directive. -/
theorem again_numeric (ds : List Nat) (c v : Nat) (rest : List Nat) (vaArgP : List VaArg)
    (tx text : List Nat) (hds : ∀ x ∈ ds, 48 ≤ x ∧ x ≤ 57) (hc : numeric c) (hv : v < 2 ^ 32)
    (htext : convert (numMag c v) (numBase c) (width_scan ds 0 32).1 (numNeg c v)
      (width_scan ds 0 32).2 = .ok text)
    (hlen : text.length ≤ 16) (hplain : ∀ x ∈ text, x < 256 ∧ x ≠ 10) :
    again (ds ++ c :: rest) 0 32 (.word v :: vaArgP) tx = .ok (rest, vaArgP, tx ++ text) := by
  have hnd : ¬ (48 ≤ c ∧ c ≤ 57) := by
    unfold numeric at hc
    omega
  rw [again_width c rest _ _ ds 0 32 hds, again, if_neg hnd, directive_numeric _ _ _ _ _ _ _ hc hv]
  simp only [convert_write, htext, hlen, if_true, uart_write_plain text tx hplain]

/-! ## Format engine: width digits -/

theorem foldl_width_ge : ∀ (ds : List Nat) (w : Nat),
    w ≤ ds.foldl (fun w c => w * 10 + (c - 48)) w := by
  intro ds
  induction ds with
  | nil => intro w; exact Nat.le_refl _
  | cons c ds ih =>
    intro w
    have := ih (w * 10 + (c - 48))
    simp only [List.foldl_cons]
    omega

theorem width_scan_fst : ∀ (ds : List Nat) (count cFill : Nat),
    ds.foldl (fun w c => w * 10 + (c - 48)) count < 2 ^ 32 →
    (width_scan ds count cFill).1 = ds.foldl (fun w c => w * 10 + (c - 48)) count := by
  intro ds
  induction ds with
  | nil => intro _ _ _; rfl
  | cons c ds ih =>
    intro count fill h
    simp only [List.foldl_cons] at h ⊢
    have hge := foldl_width_ge ds (count * 10 + (c - 48))
    rw [width_scan, Nat.mod_eq_of_lt (by omega)]
    exact ih _ _ h

theorem width_scan_snd_pos : ∀ (ds : List Nat) (count cFill : Nat), 0 < count →
    ds.foldl (fun w c => w * 10 + (c - 48)) count < 2 ^ 32 →
    (width_scan ds count cFill).2 = cFill := by
  intro ds
  induction ds with
  | nil => intro _ _ _ _; rfl
  | cons c ds ih =>
    intro count fill hpos h
    simp only [List.foldl_cons] at h
    have hge := foldl_width_ge ds (count * 10 + (c - 48))
    rw [width_scan, Nat.mod_eq_of_lt (by omega), if_neg (by omega)]
    exact ih _ _ (by omega) h

theorem width_scan_snd_zero : ∀ (ds : List Nat) (count : Nat),
    (width_scan ds count 48).2 = 48 := by
  intro ds
  induction ds with
  | nil => intro _; rfl
  | cons c ds ih =>
    intro count
    rw [width_scan, ite_self]
    exact ih _

/-- Width digits that write a number below `2 ^ 32` leave that number in
`ui32Count` and select zero fill exactly when the first of them is `0`. -/
theorem width_scan_eq (ds : List Nat) (hds : ∀ x ∈ ds, 48 ≤ x ∧ x ≤ 57)
    (hval : decVal ds < 2 ^ 32) : width_scan ds 0 32 = (decVal ds, fillOf ds) := by
  have h1 : (width_scan ds 0 32).1 = decVal ds := width_scan_fst ds 0 32 hval
  have h2 : (width_scan ds 0 32).2 = fillOf ds := by
    cases ds with
    | nil => rfl
    | cons c ds =>
      have hc := hds c (List.mem_cons_self _ _)
      unfold decVal at hval
      simp only [List.foldl_cons, Nat.zero_mul, Nat.zero_add] at hval
      have hge := foldl_width_ge ds (c - 48)
      by_cases h48 : c = 48
      · subst h48
        simp only [width_scan, fillOf, List.head?_cons, and_self, if_true]
        exact width_scan_snd_zero ds _
      · have hf : fillOf (c :: ds) = 32 := by simp [fillOf, h48]
        rw [hf, width_scan, if_neg (by omega), Nat.zero_mul, Nat.zero_add,
          Nat.mod_eq_of_lt (by omega)]
        exact width_scan_snd_pos ds _ 32 (by omega) hval
  exact Prod.ext h1 h2

/-! ## Format engine: the characters of a conversion -/

theorem g_pcHex_getD_plain (d : Nat) : g_pcHex.getD d 0 < 256 ∧ g_pcHex.getD d 0 ≠ 10 := by
  by_cases h : d < 16
  · interval_cases d <;> simp [g_pcHex]
  · rw [List.getD_eq_default _ _ (by simp [g_pcHex]; omega)]
    decide

theorem digitText_plain (b v : Nat) : ∀ x ∈ digitText b v, x < 256 ∧ x ≠ 10 := by
  intro x hx
  unfold digitText at hx
  split at hx
  · simp at hx; subst hx; decide
  · obtain ⟨d, _, rfl⟩ := List.mem_map.1 hx
    exact g_pcHex_getD_plain d

theorem digitText_length_le (b v : Nat) (hb : 10 ≤ b) (hv : v < 2 ^ 32) :
    (digitText b v).length ≤ 10 := by
  rw [digitText_length b v (by omega)]
  by_cases h0 : v = 0
  · subst h0; simp
  · have : Nat.log b v < 10 := by
      apply Nat.log_lt_of_lt_pow h0
      calc v < 2 ^ 32 := hv
        _ ≤ 10 ^ 10 := by norm_num
        _ ≤ b ^ 10 := Nat.pow_le_pow_left hb 10
    omega

theorem digitText_length_pos (b v : Nat) (hb : 1 < b) : 1 ≤ (digitText b v).length := by
  rw [digitText_length b v hb]; omega

/-- Reading the digits back in base `b` gives the number. -/
theorem digitText_readback (b v : Nat) (hb : 1 < b) (hb16 : b ≤ 16) :
    Nat.ofDigits b ((digitText b v).reverse.map hexVal) = v := by
  unfold digitText
  by_cases hv : v = 0
  · subst hv; simp [hexVal, Nat.ofDigits]
  · rw [if_neg hv, ← List.map_reverse, List.reverse_reverse, List.map_map]
    have hid : (Nat.digits b v).map (hexVal ∘ fun d => g_pcHex.getD d 0) = Nat.digits b v := by
      conv_rhs => rw [← List.map_id (Nat.digits b v)]
      apply List.map_congr_left
      intro d hd
      have hlt : d < 16 := lt_of_lt_of_le (Nat.digits_lt_base hb hd) hb16
      interval_cases d <;> simp [g_pcHex, hexVal]
    rw [hid, Nat.ofDigits_digits]

/-- The digits of a number other than zero do not start with `'0'`. -/
theorem digitText_head (b v : Nat) (hb : 1 < b) (hb16 : b ≤ 16) (hv : v ≠ 0) :
    (digitText b v).head? ≠ some 48 := by
  unfold digitText
  rw [if_neg hv]
  have hne : Nat.digits b v ≠ [] := Nat.digits_ne_nil_iff_ne_zero.2 hv
  have hlast := Nat.getLast_digit_ne_zero b hv
  have hmem := List.getLast_mem hne
  have hlt : (Nat.digits b v).getLast hne < 16 :=
    lt_of_lt_of_le (Nat.digits_lt_base hb hmem) hb16
  rw [List.head?_map, List.head?_reverse, List.getLast?_eq_getLast _ hne]
  simp only [Option.map_some', ne_eq, Option.some.injEq]
  generalize (Nat.digits b v).getLast hne = d at hlast hlt
  interval_cases d <;> simp_all [g_pcHex]

/-! ## Format engine: fields of width at most 15 -/

theorem numMag_lt (c v : Nat) (hv : v < 2 ^ 32) : numMag c v < 2 ^ 32 := by
  unfold numMag
  split
  · exact Nat.mod_lt _ (by norm_num)
  · exact hv

theorem numBase_ge (c : Nat) : 10 ≤ numBase c := by
  unfold numBase
  split <;> omega

theorem numBase_le (c : Nat) : numBase c ≤ 16 := by
  unfold numBase
  split <;> omega

/-- The conversion for a width of at most 15. -/
theorem convert_field (v b w neg f : Nat) (hb : 10 ≤ b) (hv : v < 2 ^ 32) (hw : w ≤ 15) :
    convert v b w neg f
      = .ok ((if neg ≠ 0 ∧ f = 48 then [45] else [])
          ++ List.replicate (w - ((digitText b v).length + if neg ≠ 0 then 1 else 0)) f
          ++ (if neg ≠ 0 ∧ ¬ f = 48 then [45] else [])
          ++ digitText b v) := by
  have hd1 := digitText_length_pos b v (by omega)
  have hd2 := digitText_length_le b v hb hv
  rw [convert_eq v b w neg f (by omega) hv (by omega)]
  generalize (digitText b v).length = d at hd1 hd2
  have hn : (if neg ≠ 0 then 1 else 0 : Nat) ≤ 1 := by split <;> omega
  generalize (if neg ≠ 0 then 1 else 0 : Nat) = n at hn
  have hpad : (if 1 < fieldCount d n w ∧ fieldCount d n w < 16
        then List.replicate (fieldCount d n w - 1) f else [])
      = List.replicate (w - (d + n)) f := by
    unfold fieldCount
    split
    · rename_i h
      congr 1
      omega
    · rename_i h
      have h0 : w - (d + n) = 0 := by omega
      rw [h0]; rfl
  rw [hpad]

theorem fieldText_length (c v w f : Nat) :
    (fieldText c v w f).length
      = max w ((digitText (numBase c) (numMag c v)).length + if numNeg c v ≠ 0 then 1 else 0) := by
  unfold fieldText
  simp only [List.length_append, List.length_replicate]
  by_cases hn : numNeg c v ≠ 0 <;> by_cases hf : f = 48 <;> simp [hn, hf] <;> omega

theorem fieldText_plain (c v w f : Nat) (hf : f = 32 ∨ f = 48) :
    ∀ x ∈ fieldText c v w f, x < 256 ∧ x ≠ 10 := by
  intro x hx
  unfold fieldText at hx
  simp only [List.mem_append] at hx
  rcases hx with ((hx | hx) | hx) | hx
  · split at hx
    · simp at hx; subst hx; decide
    · simp at hx
  · have := List.eq_of_mem_replicate hx
    subst this
    rcases hf with h | h <;> subst h <;> decide
  · split at hx
    · simp at hx; subst hx; decide
    · simp at hx
  · exact digitText_plain _ _ x hx

theorem fillOf_cases (ds : List Nat) : fillOf ds = 32 ∨ fillOf ds = 48 := by
  unfold fillOf
  split
  · exact Or.inr rfl
  · exact Or.inl rfl

/-- A numeric directive whose width digits write a number of at most 15, from
the label `again:`: the code reads the argument word and transmits the field. -/
theorem again_field (ds : List Nat) (c v : Nat) (rest : List Nat) (vaArgP : List VaArg)
    (tx : List Nat) (hds : ∀ x ∈ ds, 48 ≤ x ∧ x ≤ 57) (hw : decVal ds ≤ 15) (hc : numeric c)
    (hv : v < 2 ^ 32) :
    again (ds ++ c :: rest) 0 32 (.word v :: vaArgP) tx
      = .ok (rest, vaArgP, tx ++ fieldText c v (decVal ds) (fillOf ds)) := by
  have hd2 := digitText_length_le (numBase c) (numMag c v) (numBase_ge c) (numMag_lt c v hv)
  apply again_numeric ds c v rest vaArgP tx _ hds hc hv
  · rw [width_scan_eq ds hds (by omega)]
    exact convert_field _ _ _ _ _ (numBase_ge c) (numMag_lt c v hv) hw
  · rw [fieldText_length]
    have hn : (if numNeg c v ≠ 0 then 1 else 0 : Nat) ≤ 1 := by split <;> omega
    omega
  · exact fieldText_plain c v _ _ (fillOf_cases ds)

/-- A template made of one such directive and nothing else. -/
theorem uart_vprintf_field (ds : List Nat) (c v : Nat) (vaArgP : List VaArg) (tx : List Nat)
    (hds : ∀ x ∈ ds, 48 ≤ x ∧ x ≤ 57) (hw : decVal ds ≤ 15) (hc : numeric c)
    (hv : v < 2 ^ 32) :
    uart_vprintf (some (37 :: (ds ++ [c, 0]))) (.word v :: vaArgP) tx
      = .ok (vaArgP, tx ++ fieldText c v (decVal ds) (fillOf ds)) := by
  rw [uart_vprintf_directive _ _ _ _ _ _ (again_field ds c v [0] vaArgP tx hds hw hc hv)]
  exact uart_vprintf_nul _ _ _

theorem digitText_mem (b v : Nat) (hb : 1 < b) (hb16 : b ≤ 16) :
    ∀ x ∈ digitText b v, x ∈ g_pcHex := by
  intro x hx
  unfold digitText at hx
  split at hx
  · simp at hx; subst hx; decide
  · obtain ⟨d, hd, rfl⟩ := List.mem_map.1 hx
    have hlt : d < 16 := lt_of_lt_of_le (Nat.digits_lt_base hb (List.mem_reverse.1 hd)) hb16
    interval_cases d <;> decide

theorem digitText_zero (b : Nat) : digitText b 0 = [48] := by
  simp [digitText]

theorem fieldText_unpadded (c v : Nat) :
    fieldText c v 0 32
      = (if numNeg c v ≠ 0 then [45] else []) ++ digitText (numBase c) (numMag c v) := by
  unfold fieldText
  simp

/-! ## Format engine: the claims on numeric directives -/

/-- C7: for a signed 32-bit value `v`, `%d` and `%i` without a field width
transmit a `'-'` exactly when `v < 0`, followed by the decimal digits of `|v|`,
most significant first; the digits read back as `|v|`, do not start with `'0'`
unless `v = 0`, and are `"0"` for `v = 0`.  The value `-2147483648` is included:
its magnitude is `2147483648`.  The first part is the directive wherever it
stands in a template, the second the template made of the directive alone. -/
theorem uart_vprintf_signed_decimal (v : Int) (c : Nat) (rest : List Nat)
    (vaArgP : List VaArg) (tx : List Nat)
    (hmin : -2 ^ 31 ≤ v) (hmax : v < 2 ^ 31) (hc : c = 100 ∨ c = 105) :
    again (c :: rest) 0 32 (.word (ofInt32 v) :: vaArgP) tx
        = .ok (rest, vaArgP, tx ++ ((if v < 0 then [45] else []) ++ digitText 10 v.natAbs))
      ∧ uart_vprintf (some [37, c, 0]) (.word (ofInt32 v) :: vaArgP) tx
        = .ok (vaArgP, tx ++ ((if v < 0 then [45] else []) ++ digitText 10 v.natAbs))
      ∧ Nat.ofDigits 10 ((digitText 10 v.natAbs).reverse.map hexVal) = v.natAbs
      ∧ (v ≠ 0 → (digitText 10 v.natAbs).head? ≠ some 48)
      ∧ (v = 0 → digitText 10 v.natAbs = [48]) := by
  have hword : ofInt32 v < 2 ^ 32 := by unfold ofInt32; omega
  have hnum : numeric c := by unfold numeric; omega
  have hbase : numBase c = 10 := by unfold numBase; rcases hc with h | h <;> subst h <;> rfl
  have hneg : numNeg c (ofInt32 v) = if v < 0 then 1 else 0 := by
    unfold numNeg ofInt32
    by_cases h : v < 0
    · rw [if_pos h, if_pos ⟨hc, by omega⟩]
    · rw [if_neg h, if_neg (by omega)]
  have hmag : numMag c (ofInt32 v) = v.natAbs := by
    unfold numMag ofInt32
    by_cases h : v < 0
    · rw [if_pos ⟨hc, by omega⟩]; omega
    · rw [if_neg (by omega)]; omega
  have htext : fieldText c (ofInt32 v) (decVal []) (fillOf [])
      = (if v < 0 then [45] else []) ++ digitText 10 v.natAbs := by
    have h0 : decVal [] = 0 := rfl
    have hf : fillOf [] = 32 := rfl
    rw [h0, hf, fieldText_unpadded, hbase, hneg, hmag]
    by_cases hv : v < 0 <;> simp [hv]
  refine ⟨?_, ?_, digitText_readback 10 _ (by norm_num) (by norm_num), ?_, ?_⟩
  · have h := again_field [] c (ofInt32 v) rest vaArgP tx (by simp) (by simp [decVal]) hnum hword
    rw [htext] at h
    exact h
  · have h := uart_vprintf_field [] c (ofInt32 v) vaArgP tx (by simp) (by simp [decVal]) hnum
      hword
    rw [htext] at h
    exact h
  · intro hv
    exact digitText_head 10 _ (by norm_num) (by norm_num) (by omega)
  · intro hv
    subst hv
    exact digitText_zero 10

theorem uart_vprintf_signed_decimal_witness :
    uart_vprintf (some [37, 100, 0]) (.word (ofInt32 (-7)) :: []) [] = .ok ([], [45, 55]) := by
  have h := (uart_vprintf_signed_decimal (-7) 100 [] [] [] (by norm_num) (by norm_num)
    (Or.inl rfl)).2.1
  have hd : digitText 10 7 = [55] := by norm_num [digitText, g_pcHex]
  simpa [hd] using h

/-- C8: for an unsigned 32-bit value `v` and no field width, `%u` transmits
the base-10 digits of `v` and `%x`, `%X`, `%p` all transmit the same base-16
digits of `v`, drawn from `"0123456789abcdef"`, most significant first, without
a leading zero and `"0"` for `v = 0`; the digits read back as `v`, and there
are `log_b v + 1` of them for every `v`, those at and above `10 ^ 9` and
`2 ^ 28` included.  The first part is the directive wherever it stands in a
template, the second the template made of the directive alone. -/
theorem uart_vprintf_unsigned (v c : Nat) (rest : List Nat) (vaArgP : List VaArg)
    (tx : List Nat) (hv : v < 2 ^ 32) (hc : c = 117 ∨ c = 120 ∨ c = 88 ∨ c = 112) :
    again (c :: rest) 0 32 (.word v :: vaArgP) tx
        = .ok (rest, vaArgP, tx ++ digitText (if c = 117 then 10 else 16) v)
      ∧ uart_vprintf (some [37, c, 0]) (.word v :: vaArgP) tx
        = .ok (vaArgP, tx ++ digitText (if c = 117 then 10 else 16) v)
      ∧ Nat.ofDigits (if c = 117 then 10 else 16)
          ((digitText (if c = 117 then 10 else 16) v).reverse.map hexVal) = v
      ∧ (∀ x ∈ digitText (if c = 117 then 10 else 16) v, x ∈ g_pcHex)
      ∧ (v ≠ 0 → (digitText (if c = 117 then 10 else 16) v).head? ≠ some 48)
      ∧ (v = 0 → digitText (if c = 117 then 10 else 16) v = [48])
      ∧ (digitText (if c = 117 then 10 else 16) v).length
          = Nat.log (if c = 117 then 10 else 16) v + 1 := by
  have hnum : numeric c := by unfold numeric; omega
  have hbase : numBase c = if c = 117 then 10 else 16 := by
    unfold numBase; rcases hc with h | h | h | h <;> subst h <;> rfl
  have hneg : numNeg c v = 0 := by
    unfold numNeg; rw [if_neg (by omega)]
  have hmag : numMag c v = v := by
    unfold numMag; rw [if_neg (by omega)]
  have hb1 : 1 < (if c = 117 then 10 else 16 : Nat) := by split <;> norm_num
  have hb16 : (if c = 117 then 10 else 16 : Nat) ≤ 16 := by split <;> norm_num
  have htext : fieldText c v (decVal []) (fillOf [])
      = digitText (if c = 117 then 10 else 16) v := by
    have h0 : decVal [] = 0 := rfl
    have hf : fillOf [] = 32 := rfl
    rw [h0, hf, fieldText_unpadded, hbase, hneg, hmag]
    simp
  refine ⟨?_, ?_, digitText_readback _ v hb1 hb16, digitText_mem _ v hb1 hb16,
    digitText_head _ v hb1 hb16, ?_, digitText_length _ v hb1⟩
  · have h := again_field [] c v rest vaArgP tx (by simp) (by simp [decVal]) hnum hv
    rw [htext] at h
    exact h
  · have h := uart_vprintf_field [] c v vaArgP tx (by simp) (by simp [decVal]) hnum hv
    rw [htext] at h
    exact h
  · intro h0
    subst h0
    exact digitText_zero _

theorem uart_vprintf_unsigned_witness :
    uart_vprintf (some [37, 120, 0]) (.word 255 :: []) [] = .ok ([], [102, 102])
      ∧ uart_vprintf (some [37, 88, 0]) (.word 255 :: []) [] = .ok ([], [102, 102]) := by
  have h1 := (uart_vprintf_unsigned 255 120 [] [] [] (by norm_num) (by decide)).2.1
  have h2 := (uart_vprintf_unsigned 255 88 [] [] [] (by norm_num) (by decide)).2.1
  have hd : digitText 16 255 = [102, 102] := by norm_num [digitText, g_pcHex]
  constructor
  · simpa [hd] using h1
  · simpa [hd] using h2

/-- The parts of a field: what stands ahead of the fill characters and what
stands behind them. -/
theorem fieldText_split (c v w f : Nat) :
    fieldText c v w f
      = (if f = 48 then (if numNeg c v ≠ 0 then [45] else []) else [])
        ++ List.replicate
            (w - ((digitText (numBase c) (numMag c v)).length
              + if numNeg c v ≠ 0 then 1 else 0)) f
        ++ ((if f = 48 then [] else (if numNeg c v ≠ 0 then [45] else []))
            ++ digitText (numBase c) (numMag c v)) := by
  unfold fieldText
  by_cases hf : f = 48 <;> by_cases hn : numNeg c v ≠ 0 <;> simp [hf, hn]

theorem numNeg_sign (c v : Nat) :
    (if numNeg c v ≠ 0 then [45] else [] : List Nat)
      = if (c = 100 ∨ c = 105) ∧ 2 ^ 31 ≤ v then [45] else [] := by
  unfold numNeg
  by_cases h : (c = 100 ∨ c = 105) ∧ 2 ^ 31 ≤ v
  · rw [if_pos h, if_pos h, if_pos (by decide)]
  · rw [if_neg h, if_neg h, if_neg (by decide)]

/-- Where the width of a numeric directive is honoured.  For width digits
`ds` that write a number `w ≤ 15`, a numeric directive `c` and an argument word
`v`, the text transmitted has at least `w` characters, and it is the text
`pre ++ post` of the same directive without a width with `k` fill characters
put in: spaces ahead of it or, when the width starts with a `0`, zeros between
the sign and the digits.  Each directive is taken wherever it stands in a
template and as the template made of the directive alone. -/
theorem uart_vprintf_width_minimum (ds : List Nat) (c v : Nat) (rest : List Nat)
    (vaArgP : List VaArg) (tx : List Nat) (hds : ∀ x ∈ ds, 48 ≤ x ∧ x ≤ 57)
    (hw : decVal ds ≤ 15) (hc : numeric c) (hv : v < 2 ^ 32) :
    ∃ (pre post : List Nat) (k : Nat),
      again (c :: rest) 0 32 (.word v :: vaArgP) tx = .ok (rest, vaArgP, tx ++ (pre ++ post)) ∧
      uart_vprintf (some [37, c, 0]) (.word v :: vaArgP) tx = .ok (vaArgP, tx ++ (pre ++ post)) ∧
      again (ds ++ c :: rest) 0 32 (.word v :: vaArgP) tx
        = .ok (rest, vaArgP, tx ++ (pre ++ List.replicate k (fillOf ds) ++ post)) ∧
      uart_vprintf (some (37 :: (ds ++ [c, 0]))) (.word v :: vaArgP) tx
        = .ok (vaArgP, tx ++ (pre ++ List.replicate k (fillOf ds) ++ post)) ∧
      decVal ds ≤ (pre ++ List.replicate k (fillOf ds) ++ post).length ∧
      (fillOf ds = 32 → pre = []) ∧
      (fillOf ds = 48 → pre = if (c = 100 ∨ c = 105) ∧ 2 ^ 31 ≤ v then [45] else []) := by
  have e0 : decVal [] = 0 := rfl
  have ef : fillOf [] = 32 := rfl
  have hun : fieldText c v 0 32
      = (if fillOf ds = 48 then (if numNeg c v ≠ 0 then [45] else []) else [])
        ++ ((if fillOf ds = 48 then [] else (if numNeg c v ≠ 0 then [45] else []))
            ++ digitText (numBase c) (numMag c v)) := by
    rw [fieldText_unpadded]
    by_cases hf : fillOf ds = 48 <;> simp [hf]
  have a0 := again_field [] c v rest vaArgP tx (by simp) (by simp [decVal]) hc hv
  have v0 := uart_vprintf_field [] c v vaArgP tx (by simp) (by simp [decVal]) hc hv
  rw [e0, ef, hun] at a0 v0
  have a1 := again_field ds c v rest vaArgP tx hds hw hc hv
  have v1 := uart_vprintf_field ds c v vaArgP tx hds hw hc hv
  have hlen := fieldText_length c v (decVal ds) (fillOf ds)
  rw [fieldText_split] at a1 v1 hlen
  refine ⟨_, _, _, a0, v0, a1, v1, ?_, ?_, ?_⟩
  · rw [hlen]
    exact Nat.le_max_left _ _
  · intro h32
    rw [if_neg (by rw [h32]; decide)]
  · intro h48
    rw [if_pos h48, numNeg_sign]

theorem uart_vprintf_width_minimum_witness :
    ∃ (pre post : List Nat) (k : Nat),
      again (100 :: [0]) 0 32 (.word (ofInt32 (-7)) :: []) []
        = .ok ([0], [], [] ++ (pre ++ post)) ∧
      uart_vprintf (some [37, 100, 0]) (.word (ofInt32 (-7)) :: []) []
        = .ok ([], [] ++ (pre ++ post)) ∧
      again ([48, 53] ++ 100 :: [0]) 0 32 (.word (ofInt32 (-7)) :: []) []
        = .ok ([0], [], [] ++ (pre ++ List.replicate k (fillOf [48, 53]) ++ post)) ∧
      uart_vprintf (some (37 :: ([48, 53] ++ [100, 0]))) (.word (ofInt32 (-7)) :: []) []
        = .ok ([], [] ++ (pre ++ List.replicate k (fillOf [48, 53]) ++ post)) ∧
      decVal [48, 53] ≤ (pre ++ List.replicate k (fillOf [48, 53]) ++ post).length ∧
      (fillOf [48, 53] = 32 → pre = []) ∧
      (fillOf [48, 53] = 48 →
        pre = if ((100 : Nat) = 100 ∨ (100 : Nat) = 105) ∧ 2 ^ 31 ≤ ofInt32 (-7)
          then [45] else []) :=
  uart_vprintf_width_minimum [48, 53] 100 (ofInt32 (-7)) [0] [] [] (by decide) (by decide)
    (by decide) (by decide)

/-- C9: the width of a numeric directive is not a minimum.  `"%20d"` of 42
returns normally and transmits the two characters `"42"`, fewer than the 20
asked for, where `"%20s"` of the string `"42"` transmits twenty characters.
Whether a width is honoured depends on the value converted: `"%16d"` of 12
transmits sixteen characters (fourteen spaces and `"12"`), `"%16d"` of 1 the
single character `"1"`; and `"%020d"` of 42 transmits `"42"` with no zero. -/
theorem uart_vprintf_width_ignored :
    uart_vprintf (some [37, 50, 48, 100, 0]) [.word 42] [] = .ok ([], [52, 50])
      ∧ ([52, 50] : List Nat).length < decVal [50, 48]
      ∧ uart_vprintf (some [37, 50, 48, 115, 0]) [.str [52, 50, 0]] []
          = .ok ([], [52, 50] ++ List.replicate 18 32)
      ∧ uart_vprintf (some [37, 49, 54, 100, 0]) [.word 12] []
          = .ok ([], List.replicate 14 32 ++ [49, 50])
      ∧ uart_vprintf (some [37, 49, 54, 100, 0]) [.word 1] [] = .ok ([], [49])
      ∧ uart_vprintf (some [37, 48, 50, 48, 100, 0]) [.word 42] [] = .ok ([], [52, 50]) := by
  decide

/-- C10: for a numeric directive `c` whose width digits `ds` write a number
`w` of at most 15 (the widths 1 to 15, and also a width of 0), and an argument
word `v` whose unpadded text has `d` digits and `n` sign characters, the text
transmitted has `max w (d + n)` characters; with space fill it is `w - (d + n)`
spaces, the `'-'` if any, and the digits; with zero fill (the width starts with
a `0`) it is the `'-'` if any, `w - (d + n)` zeros, and the digits; nothing is
added when `w ≤ d + n`.  Each directive is taken wherever it stands in a
template and as the template made of the directive alone. -/
theorem uart_vprintf_field_layout (ds : List Nat) (c v : Nat) (rest : List Nat)
    (vaArgP : List VaArg) (tx : List Nat) (hds : ∀ x ∈ ds, 48 ≤ x ∧ x ≤ 57)
    (hw15 : decVal ds ≤ 15) (hc : numeric c) (hv : v < 2 ^ 32) :
    ∃ out sign digs : List Nat,
      again (ds ++ c :: rest) 0 32 (.word v :: vaArgP) tx = .ok (rest, vaArgP, tx ++ out) ∧
      uart_vprintf (some (37 :: (ds ++ [c, 0]))) (.word v :: vaArgP) tx
        = .ok (vaArgP, tx ++ out) ∧
      again (c :: rest) 0 32 (.word v :: vaArgP) tx = .ok (rest, vaArgP, tx ++ (sign ++ digs)) ∧
      uart_vprintf (some [37, c, 0]) (.word v :: vaArgP) tx = .ok (vaArgP, tx ++ (sign ++ digs)) ∧
      sign = (if (c = 100 ∨ c = 105) ∧ 2 ^ 31 ≤ v then [45] else []) ∧
      digs = digitText (numBase c) (numMag c v) ∧
      out.length = max (decVal ds) (digs.length + sign.length) ∧
      (ds.head? ≠ some 48 →
        out = List.replicate (decVal ds - (digs.length + sign.length)) 32 ++ sign ++ digs) ∧
      (ds.head? = some 48 →
        out = sign ++ List.replicate (decVal ds - (digs.length + sign.length)) 48 ++ digs) ∧
      (decVal ds ≤ digs.length + sign.length → out = sign ++ digs) := by
  have e0 : decVal [] = 0 := rfl
  have ef : fillOf [] = 32 := rfl
  have a0 := again_field [] c v rest vaArgP tx (by simp) (by simp [decVal]) hc hv
  have v0 := uart_vprintf_field [] c v vaArgP tx (by simp) (by simp [decVal]) hc hv
  rw [e0, ef, fieldText_unpadded, numNeg_sign] at a0 v0
  have a1 := again_field ds c v rest vaArgP tx hds hw15 hc hv
  have v1 := uart_vprintf_field ds c v vaArgP tx hds hw15 hc hv
  have hlen := fieldText_length c v (decVal ds) (fillOf ds)
  have hn : (if numNeg c v ≠ 0 then 1 else 0 : Nat)
      = (if (c = 100 ∨ c = 105) ∧ 2 ^ 31 ≤ v then [45] else [] : List Nat).length := by
    rw [← numNeg_sign]; split <;> rfl
  refine ⟨fieldText c v (decVal ds) (fillOf ds), _, _, a1, v1, a0, v0, rfl, rfl, ?_, ?_, ?_, ?_⟩
  · rw [hlen, hn]
  · intro hhead
    have hf : fillOf ds = 32 := by unfold fillOf; rw [if_neg hhead]
    rw [fieldText_split, hf, hn, numNeg_sign]
    simp
  · intro hhead
    have hf : fillOf ds = 48 := by unfold fillOf; rw [if_pos hhead]
    rw [fieldText_split, hf, hn, numNeg_sign]
    simp
  · intro hle
    rw [fieldText_split, hn, numNeg_sign, Nat.sub_eq_zero_of_le hle]
    by_cases hf : fillOf ds = 48 <;> simp [hf]

theorem uart_vprintf_field_layout_witness :
    (∃ out sign digs : List Nat,
      again ([48, 53] ++ 100 :: [0]) 0 32 (.word (ofInt32 (-7)) :: []) []
        = .ok ([0], [], [] ++ out) ∧
      uart_vprintf (some (37 :: ([48, 53] ++ [100, 0]))) (.word (ofInt32 (-7)) :: []) []
        = .ok ([], [] ++ out) ∧
      again (100 :: [0]) 0 32 (.word (ofInt32 (-7)) :: []) []
        = .ok ([0], [], [] ++ (sign ++ digs)) ∧
      uart_vprintf (some [37, 100, 0]) (.word (ofInt32 (-7)) :: []) []
        = .ok ([], [] ++ (sign ++ digs)) ∧
      sign = (if ((100 : Nat) = 100 ∨ (100 : Nat) = 105) ∧ 2 ^ 31 ≤ ofInt32 (-7)
        then [45] else []) ∧
      digs = digitText (numBase 100) (numMag 100 (ofInt32 (-7))) ∧
      out.length = max (decVal [48, 53]) (digs.length + sign.length) ∧
      ([48, 53].head? ≠ some 48 →
        out = List.replicate (decVal [48, 53] - (digs.length + sign.length)) 32 ++ sign ++ digs) ∧
      ([48, 53].head? = some 48 →
        out = sign ++ List.replicate (decVal [48, 53] - (digs.length + sign.length)) 48 ++ digs) ∧
      (decVal [48, 53] ≤ digs.length + sign.length → out = sign ++ digs))
    ∧ uart_vprintf (some [37, 53, 100, 0]) [.word 42] [] = .ok ([], [32, 32, 32, 52, 50])
    ∧ uart_vprintf (some [37, 48, 53, 100, 0]) [.word 42] [] = .ok ([], [48, 48, 48, 52, 50])
    ∧ uart_vprintf (some [37, 48, 53, 100, 0]) [.word (ofInt32 (-7))] []
        = .ok ([], [45, 48, 48, 48, 55]) :=
  ⟨uart_vprintf_field_layout [48, 53] 100 (ofInt32 (-7)) [0] [] [] (by decide) (by decide)
    (by decide) (by decide), by decide, by decide, by decide⟩

/-! ## Format engine: the scratch array -/

/-- C11, evaluated on the failing input.  For `"%17d"` of 1234 the conversion
assigns 17 bytes, thirteen spaces and four digits, to the array of 16: the
last one goes to `pcBuf[16]`, and the call of `uart_vprintf` runs past the
array. -/
theorem convert_overruns_scratch :
    convert 1234 10 17 0 32
        = .ok [32, 32, 32, 32, 32, 32, 32, 32, 32, 32, 32, 32, 32, 49, 50, 51, 52]
      ∧ [32, 32, 32, 32, 32, 32, 32, 32, 32, 32, 32, 32, 32, 49, 50, 51, 52].length = 17
      ∧ uart_vprintf (some [37, 49, 55, 100, 0]) [.word 1234] []
        = .error .scratch_overflow := by
  decide

/-- C19: the exact envelope of the conversion.  For a numeric directive `c`,
an argument word `v` and a parsed width `w` (a 32-bit value), with `d` the
number of digits of the magnitude and `n` the number of sign characters, the
conversion assigns to `pcBuf` the sign, `k` fill characters and the digits,
where fill characters are written exactly when `d + n + 1 ≤ w ≤ d + n + 14`;
the array then receives `w` bytes and otherwise `d + n` bytes.  So a width of
at most 16 gives at most 16 bytes, and more than 16 bytes are assigned exactly
when `17 ≤ w ≤ d + n + 14`.  The number `d` is one more than the logarithm of
the magnitude in the base of the directive. -/
theorem convert_envelope (c v w f d n : Nat) (_hc : numeric c) (hv : v < 2 ^ 32)
    (hw : w < 2 ^ 32) (hd : d = (digitText (numBase c) (numMag c v)).length)
    (hn : n = if numNeg c v ≠ 0 then 1 else 0) :
    ∃ (pcBuf : List Nat) (k : Nat),
      convert (numMag c v) (numBase c) w (numNeg c v) f = .ok pcBuf ∧
      pcBuf = (if numNeg c v ≠ 0 ∧ f = 48 then [45] else []) ++ List.replicate k f
          ++ (if numNeg c v ≠ 0 ∧ ¬ f = 48 then [45] else [])
          ++ digitText (numBase c) (numMag c v) ∧
      (0 < k ↔ d + n + 1 ≤ w ∧ w ≤ d + n + 14) ∧
      (d + n + 1 ≤ w ∧ w ≤ d + n + 14 → pcBuf.length = w) ∧
      (¬ (d + n + 1 ≤ w ∧ w ≤ d + n + 14) → pcBuf.length = d + n) ∧
      (w ≤ 16 → pcBuf.length ≤ 16) ∧
      (16 < pcBuf.length ↔ 17 ≤ w ∧ w ≤ d + n + 14) ∧
      d = Nat.log (numBase c) (numMag c v) + 1 := by
  have hlog : d = Nat.log (numBase c) (numMag c v) + 1 := by
    rw [hd]
    exact digitText_length _ _ (lt_of_lt_of_le (by norm_num) (numBase_ge c))
  have hd1 := digitText_length_pos (numBase c) (numMag c v)
    (lt_of_lt_of_le (by norm_num) (numBase_ge c))
  have hd2 := digitText_length_le (numBase c) (numMag c v) (numBase_ge c) (numMag_lt c v hv)
  have hconv := convert_eq (numMag c v) (numBase c) w (numNeg c v) f
    (lt_of_lt_of_le (by norm_num) (numBase_ge c)) (numMag_lt c v hv) hw
  rw [← hd, ← hn] at hconv
  rw [← hd] at hd1 hd2
  have hn1 : n ≤ 1 := by rw [hn]; split <;> omega
  have hsign : ((if numNeg c v ≠ 0 ∧ f = 48 then [45] else [] : List Nat).length
      + (if numNeg c v ≠ 0 ∧ ¬ f = 48 then [45] else [] : List Nat).length) = n := by
    rw [hn]
    by_cases h0 : numNeg c v ≠ 0 <;> by_cases hf : f = 48 <;> simp [h0, hf]
  have hfc : fieldCount d n w = (w + 2 ^ 32 * (d - 1 + n) - (d - 1 + n)) % 2 ^ 32 := rfl
  have hiff : (1 < fieldCount d n w ∧ fieldCount d n w < 16) ↔ (d + n + 1 ≤ w ∧ w ≤ d + n + 14) := by
    rw [hfc]; omega
  by_cases hpad : 1 < fieldCount d n w ∧ fieldCount d n w < 16
  · have hin := hiff.1 hpad
    have hk : fieldCount d n w - 1 = w - (d + n) := by rw [hfc]; omega
    rw [if_pos hpad, hk] at hconv
    have hl : ((if numNeg c v ≠ 0 ∧ f = 48 then [45] else []) ++
            List.replicate (w - (d + n)) f
          ++ (if numNeg c v ≠ 0 ∧ ¬ f = 48 then [45] else [])
          ++ digitText (numBase c) (numMag c v)).length = w := by
      simp only [List.length_append, List.length_replicate]
      rw [← hd]
      omega
    refine ⟨_, w - (d + n), hconv, rfl, ?_, ?_, ?_, ?_, ?_, hlog⟩
    · constructor
      · intro _; exact hin
      · intro _; omega
    · intro _; exact hl
    · intro h; exact absurd hin h
    · intro h; rw [hl]; exact h
    · rw [hl]; omega
  · have hout : ¬ (d + n + 1 ≤ w ∧ w ≤ d + n + 14) := fun h => hpad (hiff.2 h)
    rw [if_neg hpad] at hconv
    have hl : ((if numNeg c v ≠ 0 ∧ f = 48 then [45] else []) ++ ([] : List Nat)
          ++ (if numNeg c v ≠ 0 ∧ ¬ f = 48 then [45] else [])
          ++ digitText (numBase c) (numMag c v)).length = d + n := by
      simp only [List.length_append, List.length_nil]
      rw [← hd]
      omega
    refine ⟨_, 0, hconv, rfl, ?_, ?_, ?_, ?_, ?_, hlog⟩
    · constructor
      · intro h; omega
      · intro h; exact absurd h hout
    · intro h; exact absurd h hout
    · intro _; exact hl
    · intro _; rw [hl]; omega
    · rw [hl]; omega

theorem convert_envelope_witness :
    ∃ (pcBuf : List Nat) (k : Nat),
      convert (numMag 100 1234) (numBase 100) 17 (numNeg 100 1234) 32 = .ok pcBuf ∧
      pcBuf = (if numNeg 100 1234 ≠ 0 ∧ (32 : Nat) = 48 then [45] else []) ++ List.replicate k 32
          ++ (if numNeg 100 1234 ≠ 0 ∧ ¬ (32 : Nat) = 48 then [45] else [])
          ++ digitText (numBase 100) (numMag 100 1234) ∧
      (0 < k ↔ 4 + 0 + 1 ≤ 17 ∧ 17 ≤ 4 + 0 + 14) ∧
      (4 + 0 + 1 ≤ 17 ∧ 17 ≤ 4 + 0 + 14 → pcBuf.length = 17) ∧
      (¬ (4 + 0 + 1 ≤ 17 ∧ 17 ≤ 4 + 0 + 14) → pcBuf.length = 4 + 0) ∧
      (17 ≤ 16 → pcBuf.length ≤ 16) ∧
      (16 < pcBuf.length ↔ 17 ≤ 17 ∧ 17 ≤ 4 + 0 + 14) ∧
      4 = Nat.log (numBase 100) (numMag 100 1234) + 1 :=
  convert_envelope 100 1234 17 32 4 0 (by decide) (by norm_num) (by norm_num)
    (by norm_num [digitText, g_pcHex, numBase, numMag]) (by decide)

/-! ## Format engine: strings, characters and unknown directives -/

theorem scan_string_run (tail : List Nat) :
    ∀ s : List Nat, (∀ b ∈ s, b ≠ 0) → scan_string (s ++ 0 :: tail) = some s.length := by
  intro s
  induction s with
  | nil => intro _; simp [scan_string]
  | cons b s ih =>
    intro hb
    have h0 := hb b (List.mem_cons_self _ _)
    simp [scan_string, h0, ih (fun c hc => hb c (List.mem_cons_of_mem _ hc))]

theorem pad_loop_eq : ∀ (n : Nat) (tx : List Nat),
    pad_loop n tx = .ok (tx ++ List.replicate n 32) := by
  intro n
  induction n with
  | zero => intro tx; simp [pad_loop]
  | succ n ih =>
    intro tx
    have hw : uart_write (some [32, 0]) 1 tx = .ok (toInt32 1, tx ++ [32]) := by
      have h := uart_write_leading [32] [0] tx (by decide)
      simpa [crlf] using h
    rw [pad_loop, hw]
    simp only []
    rw [ih, List.replicate_succ, List.append_assoc]
    rfl

/-- The `%s` case of the `switch`. -/
theorem directive_string (s tail pcString : List Nat) (ui32Count cFill : Nat)
    (vaArgP : List VaArg) (tx : List Nat) (hs : ∀ b ∈ s, b < 256 ∧ b ≠ 0) :
    directive 115 pcString ui32Count cFill (.str (s ++ 0 :: tail) :: vaArgP) tx
      = .ok (vaArgP, tx ++ crlf s ++ List.replicate (ui32Count - s.length) 32) := by
  have hscan := scan_string_run tail s (fun b hb => (hs b hb).2)
  have hwr := uart_write_leading s (0 :: tail) tx (fun b hb => (hs b hb).1)
  simp only [directive, va_arg_ptr, hscan, hwr]
  norm_num
  by_cases hgt : s.length < ui32Count
  · rw [if_pos hgt, pad_loop_eq]
    simp
  · rw [if_neg hgt, Nat.sub_eq_zero_of_le (by omega)]
    simp

/-- C12: for a NUL-terminated string `s` of length `L` and width digits `ds`
that write a 32-bit number `w`, the `%s` directive reads the string argument and
transmits the `L` bytes of `s` through `uart_write` (a carriage return ahead of
each line feed, the bytes unchanged when `s` holds no line feed), followed by
`w - L` spaces, none when `w ≤ L`; the padding is made of spaces whether or not
the width starts with a `0`.  The first part is the directive wherever it
stands in a template, the second the template made of the directive alone. -/
theorem uart_vprintf_string (ds s tail rest : List Nat) (vaArgP : List VaArg) (tx : List Nat)
    (hds : ∀ x ∈ ds, 48 ≤ x ∧ x ≤ 57) (hval : decVal ds < 2 ^ 32)
    (hs : ∀ b ∈ s, b < 256 ∧ b ≠ 0) :
    again (ds ++ 115 :: rest) 0 32 (.str (s ++ 0 :: tail) :: vaArgP) tx
        = .ok (rest, vaArgP, tx ++ crlf s ++ List.replicate (decVal ds - s.length) 32)
      ∧ uart_vprintf (some (37 :: (ds ++ [115, 0]))) (.str (s ++ 0 :: tail) :: vaArgP) tx
        = .ok (vaArgP, tx ++ crlf s ++ List.replicate (decVal ds - s.length) 32)
      ∧ ((∀ b ∈ s, b ≠ 10) → crlf s = s)
      ∧ (crlf s ++ List.replicate (decVal ds - s.length) 32).length
        = (crlf s).length + (decVal ds - s.length) := by
  have hag : ∀ rest1 : List Nat,
      again (ds ++ 115 :: rest1) 0 32 (.str (s ++ 0 :: tail) :: vaArgP) tx
        = .ok (rest1, vaArgP, tx ++ crlf s ++ List.replicate (decVal ds - s.length) 32) := by
    intro rest1
    rw [again_width 115 rest1 _ _ ds 0 32 hds, again, if_neg (by decide),
      directive_string s tail rest1 _ _ vaArgP tx hs, width_scan_eq ds hds hval]
  refine ⟨hag rest, ?_, crlf_id s, by simp⟩
  rw [uart_vprintf_directive _ _ _ _ _ _ (hag [0])]
  exact uart_vprintf_nul _ _ _

theorem uart_vprintf_string_witness :
    uart_vprintf (some [37, 52, 115, 0]) [.str [104, 105, 0]] [] = .ok ([], [104, 105, 32, 32])
      ∧ uart_vprintf (some [37, 48, 52, 115, 0]) [.str [104, 105, 0]] []
        = .ok ([], [104, 105, 32, 32]) := by
  have h1 := (uart_vprintf_string [52] [104, 105] [] [] [] [] (by decide) (by decide)
    (by decide)).2.1
  have h2 := (uart_vprintf_string [48, 52] [104, 105] [] [] [] [] (by decide) (by decide)
    (by decide)).2.1
  exact ⟨h1, h2⟩

/-- The `%c` case of the `switch`. -/
theorem directive_char (pcString : List Nat) (ui32Count cFill v : Nat) (vaArgP : List VaArg)
    (tx : List Nat) :
    directive 99 pcString ui32Count cFill (.word v :: vaArgP) tx
      = .ok (vaArgP, tx ++ crlf [v % 256]) := by
  have hw : uart_write (some (wordBytes (v % 2 ^ 32))) 1 tx
      = .ok (toInt32 1, tx ++ crlf [v % 256]) := by
    have hlow : v % 2 ^ 32 % 256 = v % 256 := by omega
    have h := uart_write_leading [v % 256]
      [v % 2 ^ 32 / 256 % 256, v % 2 ^ 32 / 65536 % 256, v % 2 ^ 32 / 16777216 % 256] tx
      (by intro b hb; simp at hb; omega)
    unfold wordBytes
    rw [hlow]
    exact h
  simp only [directive, va_arg_uint32, hw]
  norm_num

/-- The `%%` case of the `switch`. -/
theorem directive_percent (pcString : List Nat) (ui32Count cFill : Nat) (vaArgP : List VaArg)
    (tx : List Nat) :
    directive 37 pcString ui32Count cFill vaArgP tx = .ok (vaArgP, tx ++ [37]) := by
  have hw : uart_write (some (37 :: pcString)) 1 tx = .ok (toInt32 1, tx ++ [37]) := by
    have h := uart_write_leading [37] pcString tx (by decide)
    simpa [crlf] using h
  simp only [directive, hw]
  norm_num

/-- The `default` case of the `switch`. -/
theorem directive_default (c : Nat) (pcString : List Nat) (ui32Count cFill : Nat)
    (vaArgP : List VaArg) (tx : List Nat)
    (hc : c ≠ 99 ∧ c ≠ 100 ∧ c ≠ 105 ∧ c ≠ 115 ∧ c ≠ 117 ∧ c ≠ 120 ∧ c ≠ 88 ∧ c ≠ 112 ∧ c ≠ 37) :
    directive c pcString ui32Count cFill vaArgP tx
      = .ok (vaArgP, tx ++ [69, 82, 82, 79, 82]) := by
  have hw : uart_write (some [69, 82, 82, 79, 82, 0]) 5 tx
      = .ok (toInt32 5, tx ++ [69, 82, 82, 79, 82]) := by
    have h := uart_write_leading [69, 82, 82, 79, 82] [0] tx (by decide)
    simpa [crlf] using h
  obtain ⟨h1, h2, h3, h4, h5, h6, h7, h8, h9⟩ := hc
  simp only [directive, hw, h1, h2, h3, h4, h5, h6, h7, h8, h9, if_false, false_or]

/-! ## Format engine: the transmit stream is only appended to -/

theorem uart_putc_frame (pre : List Nat) (c : Int) (tx : List Nat) :
    uart_putc c (pre ++ tx) = pre ++ uart_putc c tx := by
  simp [uart_putc]

theorem uart_write_loop_frame (pre pcBuf : List Nat) : ∀ (n uIdx : Nat) (tx : List Nat),
    uart_write_loop pcBuf n uIdx (pre ++ tx)
      = (uart_write_loop pcBuf n uIdx tx).map (Prod.map id (pre ++ ·)) := by
  intro n
  induction n with
  | zero => intro uIdx tx; rfl
  | succ n ih =>
    intro uIdx tx
    rw [uart_write_loop, uart_write_loop]
    cases pcBuf[uIdx]? with
    | none => rfl
    | some c =>
      simp only []
      by_cases h10 : c = 10
      · simp only [h10, if_true, uart_putc_frame]
        exact ih _ _
      · simp only [h10, if_false, uart_putc_frame]
        exact ih _ _

theorem uart_write_frame (pre : List Nat) (pcBuf : Option (List Nat)) (n : Nat) (tx : List Nat) :
    uart_write pcBuf n (pre ++ tx) = (uart_write pcBuf n tx).map (Prod.map id (pre ++ ·)) := by
  cases pcBuf with
  | none => rfl
  | some buf =>
    simp only [uart_write, uart_write_loop_frame]
    cases uart_write_loop buf n 0 tx with
    | error e => rfl
    | ok r => rfl

theorem pad_loop_frame (pre : List Nat) : ∀ (n : Nat) (tx : List Nat),
    pad_loop n (pre ++ tx) = (pad_loop n tx).map (pre ++ ·) := by
  intro n
  induction n with
  | zero => intro tx; rfl
  | succ n ih =>
    intro tx
    rw [pad_loop, pad_loop, uart_write_frame]
    cases uart_write (some [32, 0]) 1 tx with
    | error e => rfl
    | ok r => exact ih _

theorem convert_write_frame (pre : List Nat) (v b count neg f : Nat) (tx : List Nat) :
    convert_write v b count neg f (pre ++ tx)
      = (convert_write v b count neg f tx).map (pre ++ ·) := by
  unfold convert_write
  cases convert v b count neg f with
  | error e => rfl
  | ok pcBuf =>
    simp only []
    split
    · rw [uart_write_frame]
      cases uart_write (some pcBuf) pcBuf.length tx with
      | error e => rfl
      | ok r => rfl
    · rfl

theorem directive_frame (pre : List Nat) (c : Nat) (pcString : List Nat) (count f : Nat)
    (vaArgP : List VaArg) (tx : List Nat) :
    directive c pcString count f vaArgP (pre ++ tx)
      = (directive c pcString count f vaArgP tx).map (Prod.map id (pre ++ ·)) := by
  unfold directive
  split
  · cases va_arg_uint32 vaArgP with
    | error e => rfl
    | ok r =>
      simp only [uart_write_frame]
      cases uart_write (some (wordBytes r.1)) 1 tx with
      | error e => rfl
      | ok r2 => rfl
  · split
    · cases va_arg_uint32 vaArgP with
      | error e => rfl
      | ok r =>
        simp only [convert_write_frame]
        by_cases hneg : 2 ^ 31 ≤ r.1
        · simp only [hneg, if_true]
          cases convert_write ((2 ^ 32 - r.1) % 2 ^ 32) 10 count 1 f tx with
          | error e => rfl
          | ok r2 => rfl
        · simp only [hneg, if_false]
          cases convert_write r.1 10 count 0 f tx with
          | error e => rfl
          | ok r2 => rfl
    · split
      · cases va_arg_ptr vaArgP with
        | error e => rfl
        | ok r =>
          simp only []
          cases scan_string r.1 with
          | none => rfl
          | some n =>
            simp only [uart_write_frame]
            cases uart_write (some r.1) n tx with
            | error e => rfl
            | ok r2 =>
              simp only [Except.map, Prod.map, id]
              split
              · rw [pad_loop_frame]
                cases pad_loop (count - n) r2.2 with
                | error e => rfl
                | ok r3 => rfl
              · rfl
      · split
        · cases va_arg_uint32 vaArgP with
          | error e => rfl
          | ok r =>
            simp only [convert_write_frame]
            cases convert_write r.1 10 count 0 f tx with
            | error e => rfl
            | ok r2 => rfl
        · split
          · cases va_arg_uint32 vaArgP with
            | error e => rfl
            | ok r =>
              simp only [convert_write_frame]
              cases convert_write r.1 16 count 0 f tx with
              | error e => rfl
              | ok r2 => rfl
          · split
            · rw [uart_write_frame]
              cases uart_write (some (c :: pcString)) 1 tx with
              | error e => rfl
              | ok r2 => rfl
            · rw [uart_write_frame]
              cases uart_write (some [69, 82, 82, 79, 82, 0]) 5 tx with
              | error e => rfl
              | ok r2 => rfl

theorem again_frame (pre : List Nat) : ∀ (s : List Nat) (count f : Nat) (vaArgP : List VaArg)
    (tx : List Nat),
    again s count f vaArgP (pre ++ tx)
      = (again s count f vaArgP tx).map (Prod.map id (Prod.map id (pre ++ ·))) := by
  intro s
  induction s with
  | nil => intro _ _ _ _; rfl
  | cons c s ih =>
    intro count f ap tx
    rw [again, again]
    split
    · exact ih _ _ _ _
    · rw [directive_frame]
      cases directive c s count f ap tx with
      | error e => rfl
      | ok r => rfl

theorem uart_vprintf_loop_frame (pre : List Nat) : ∀ (fuel : Nat) (s : List Nat)
    (vaArgP : List VaArg) (tx : List Nat),
    uart_vprintf_loop fuel s vaArgP (pre ++ tx)
      = (uart_vprintf_loop fuel s vaArgP tx).map (Prod.map id (pre ++ ·)) := by
  intro fuel
  induction fuel with
  | zero => intro _ _ _; rfl
  | succ fuel ih =>
    intro s ap tx
    cases s with
    | nil => rfl
    | cons c s =>
      by_cases hc : c = 0
      · subst hc
        rw [uart_vprintf_loop_nul, uart_vprintf_loop_nul]
        rfl
      · rw [uart_vprintf_loop_step _ _ _ _ _ hc, uart_vprintf_loop_step _ _ _ _ _ hc]
        cases scan_literal (c :: s) with
        | none => rfl
        | some n =>
          simp only [uart_write_frame]
          cases uart_write (some (c :: s)) n tx with
          | error e => rfl
          | ok r =>
            obtain ⟨ret, tx1⟩ := r
            simp only [Except.map, Prod.map, id]
            generalize (c :: s).drop n = p
            cases p with
            | nil => exact ih _ _ _
            | cons x p =>
              by_cases hx : x = 37
              · subst hx
                simp only [again_frame]
                cases again p 0 32 ap tx1 with
                | error e => rfl
                | ok r2 =>
                  obtain ⟨p2, ap2, tx2⟩ := r2
                  exact ih _ _ _
              · have hm : ∀ (α : Type) (a : List Nat → α) (b : List Nat → α),
                    (match x :: p with
                      | 37 :: q => a q
                      | q => b q) = b (x :: p) := by
                  intro α a b
                  split
                  · rename_i heq
                    simp only [List.cons.injEq] at heq
                    exact absurd heq.1 hx
                  · rfl
                rw [hm, hm]
                exact ih _ _ _

/-- What a call transmits does not depend on what the stream held before. -/
theorem uart_vprintf_frame (pre : List Nat) (pcString : Option (List Nat))
    (vaArgP : List VaArg) (tx : List Nat) :
    uart_vprintf pcString vaArgP (pre ++ tx)
      = (uart_vprintf pcString vaArgP tx).map (Prod.map id (pre ++ ·)) := by
  cases pcString with
  | none => rfl
  | some s => exact uart_vprintf_loop_frame pre _ s vaArgP tx

/-! ## Format engine: the claims on `%c`, `%%` and unknown directives -/

/-- C13: for a directive character `c` that is not a digit and not one of
`c`, `d`, `i`, `s`, `u`, `x`, `X`, `p`, `%`, placed after `'%'` and any width
digits `ds`, and for every remaining template `rest`, the call transmits the
five bytes `"ERROR"`, reads no argument, and goes on as the call on `rest` with
the same argument list: it returns what that call returns, with `"ERROR"` ahead
of what that call transmits, and it ends in a fault only when that call does. -/
theorem uart_vprintf_unknown (ds : List Nat) (c : Nat) (rest : List Nat) (vaArgP : List VaArg)
    (tx : List Nat) (hds : ∀ x ∈ ds, 48 ≤ x ∧ x ≤ 57) (hdigit : ¬ (48 ≤ c ∧ c ≤ 57))
    (hc : c ≠ 99 ∧ c ≠ 100 ∧ c ≠ 105 ∧ c ≠ 115 ∧ c ≠ 117 ∧ c ≠ 120 ∧ c ≠ 88 ∧ c ≠ 112 ∧ c ≠ 37) :
    again (ds ++ c :: rest) 0 32 vaArgP tx = .ok (rest, vaArgP, tx ++ [69, 82, 82, 79, 82])
      ∧ uart_vprintf (some (37 :: (ds ++ c :: rest))) vaArgP tx
        = uart_vprintf (some rest) vaArgP (tx ++ [69, 82, 82, 79, 82])
      ∧ (∀ (vaArgP1 : List VaArg) (out : List Nat),
          uart_vprintf (some rest) vaArgP [] = .ok (vaArgP1, out) →
          uart_vprintf (some (37 :: (ds ++ c :: rest))) vaArgP tx
            = .ok (vaArgP1, tx ++ [69, 82, 82, 79, 82] ++ out))
      ∧ (∀ e : Fault, uart_vprintf (some rest) vaArgP [] = .error e →
          uart_vprintf (some (37 :: (ds ++ c :: rest))) vaArgP tx = .error e) := by
  have hag : again (ds ++ c :: rest) 0 32 vaArgP tx
      = .ok (rest, vaArgP, tx ++ [69, 82, 82, 79, 82]) := by
    rw [again_width c rest _ _ ds 0 32 hds, again, if_neg hdigit,
      directive_default c rest _ _ vaArgP tx hc]
  have hrun := uart_vprintf_directive _ _ _ _ _ _ hag
  have hframe := uart_vprintf_frame (tx ++ [69, 82, 82, 79, 82]) (some rest) vaArgP []
  rw [List.append_nil] at hframe
  refine ⟨hag, hrun, ?_, ?_⟩
  · intro ap1 out hrest
    rw [hrun, hframe, hrest]
    rfl
  · intro e hrest
    rw [hrun, hframe, hrest]
    rfl

theorem uart_vprintf_unknown_witness :
    again ([] ++ 122 :: [104, 105, 0]) 0 32 [] [] = .ok ([104, 105, 0], [], [] ++ [69, 82, 82, 79, 82])
      ∧ uart_vprintf (some (37 :: ([] ++ 122 :: [104, 105, 0]))) [] []
        = uart_vprintf (some [104, 105, 0]) [] ([] ++ [69, 82, 82, 79, 82])
      ∧ (∀ (vaArgP1 : List VaArg) (out : List Nat),
          uart_vprintf (some [104, 105, 0]) [] [] = .ok (vaArgP1, out) →
          uart_vprintf (some (37 :: ([] ++ 122 :: [104, 105, 0]))) [] []
            = .ok (vaArgP1, [] ++ [69, 82, 82, 79, 82] ++ out))
      ∧ (∀ e : Fault, uart_vprintf (some [104, 105, 0]) [] [] = .error e →
          uart_vprintf (some (37 :: ([] ++ 122 :: [104, 105, 0]))) [] [] = .error e) :=
  uart_vprintf_unknown [] 122 [104, 105, 0] [] [] (by decide) (by decide) (by decide)

/-- C14: `%c` and `%%` ignore the field width.  After any width digits `ds`,
with or without a leading `0`, `%c` reads one argument word and hands its low
byte to `uart_write` as one byte, so that a line feed is transmitted as CR LF
and any other byte as itself, and `%%` reads no argument and transmits the
single byte `'%'`.  Each directive is taken wherever it stands in a template
and as the template made of the directive alone. -/
theorem uart_vprintf_char_percent (ds rest : List Nat) (v : Nat) (vaArgP : List VaArg)
    (tx : List Nat) (hds : ∀ x ∈ ds, 48 ≤ x ∧ x ≤ 57) :
    again (ds ++ 99 :: rest) 0 32 (.word v :: vaArgP) tx
        = .ok (rest, vaArgP, tx ++ crlf [v % 256])
      ∧ uart_vprintf (some (37 :: (ds ++ [99, 0]))) (.word v :: vaArgP) tx
        = .ok (vaArgP, tx ++ crlf [v % 256])
      ∧ crlf [v % 256] = (if v % 256 = 10 then [13, 10] else [v % 256])
      ∧ again (ds ++ 37 :: rest) 0 32 vaArgP tx = .ok (rest, vaArgP, tx ++ [37])
      ∧ uart_vprintf (some (37 :: (ds ++ [37, 0]))) vaArgP tx = .ok (vaArgP, tx ++ [37]) := by
  have hc : ∀ rest1 : List Nat, again (ds ++ 99 :: rest1) 0 32 (.word v :: vaArgP) tx
      = .ok (rest1, vaArgP, tx ++ crlf [v % 256]) := by
    intro rest1
    rw [again_width 99 rest1 _ _ ds 0 32 hds, again, if_neg (by decide), directive_char]
  have hp : ∀ rest1 : List Nat, again (ds ++ 37 :: rest1) 0 32 vaArgP tx
      = .ok (rest1, vaArgP, tx ++ [37]) := by
    intro rest1
    rw [again_width 37 rest1 _ _ ds 0 32 hds, again, if_neg (by decide), directive_percent]
  refine ⟨hc rest, ?_, ?_, hp rest, ?_⟩
  · rw [uart_vprintf_directive _ _ _ _ _ _ (hc [0])]
    exact uart_vprintf_nul _ _ _
  · by_cases h : v % 256 = 10 <;> simp [crlf, h]
  · rw [uart_vprintf_directive _ _ _ _ _ _ (hp [0])]
    exact uart_vprintf_nul _ _ _

theorem uart_vprintf_char_percent_witness :
    uart_vprintf (some [37, 37, 0]) [] [] = .ok ([], [37])
      ∧ uart_vprintf (some [37, 48, 53, 99, 0]) [.word 0x141] [] = .ok ([], [65])
      ∧ uart_vprintf (some [37, 53, 99, 0]) [.word 10] [] = .ok ([], [13, 10]) := by
  have h1 := (uart_vprintf_char_percent [] [] 0 [] [] (by decide)).2.2.2.2
  have h2 := (uart_vprintf_char_percent [48, 53] [] 0x141 [] [] (by decide)).2.1
  have h3 := (uart_vprintf_char_percent [53] [] 10 [] [] (by decide)).2.1
  exact ⟨h1, h2, h3⟩

/-! ## Null buffers -/

/-- C15: a null buffer is rejected with a sentinel and nothing else happens.
`uart_write(NULL, len)` returns 0 and leaves the transmit stream as it was;
`uart_gets(NULL, cap)` returns -1, assigns nothing, and leaves the transmit
stream, the receive stream and the flag `bLastWasCR` as they were.
`uart_write` has neither the receive stream nor the flag in its scope. -/
theorem null_buffer_rejected (ui32Len : Nat) (bLastWasCR : Bool) (rx tx : List Nat) :
    uart_write none ui32Len tx = .ok (0, tx)
      ∧ uart_gets none ui32Len bLastWasCR rx tx = some ⟨-1, [], bLastWasCR, rx, tx⟩ :=
  ⟨rfl, rfl⟩

/-! ## Line reader: the echo -/

theorem echoChunks_append (cs ds : List (Option Nat)) :
    echoChunks (cs ++ ds) = echoChunks cs ++ echoChunks ds := by
  induction cs with
  | nil => rfl
  | cons c cs ih =>
    cases c with
    | none => simp [echoChunks, ih]
    | some v => simp [echoChunks, ih]

/-- The transmit stream at the end of the read loop: the echo that `echoLine`
describes, which is made of the stored bytes, once each and in the order of
the assignments, and of erase sequences. -/
theorem uart_gets_loop_echo (ui32Len : Nat) :
    ∀ (rx : List Nat) (stores : List (Nat × Nat)) (ui32Count : Nat) (bLastWasCR : Bool)
      (tx : List Nat) (e : GetsExit), (∀ b ∈ rx, b < 256) →
      uart_gets_loop ui32Len rx stores ui32Count bLastWasCR tx = some e →
      e.tx = tx ++ echoLine ui32Len rx ui32Count bLastWasCR ∧
      ∃ (added : List (Nat × Nat)) (chunks : List (Option Nat)),
        e.stores = stores ++ added ∧
        echoLine ui32Len rx ui32Count bLastWasCR = echoChunks chunks ∧
        chunks.filterMap id = added.map Prod.snd := by
  intro rx
  induction rx with
  | nil => intro stores c f tx e _ h; simp [uart_gets_loop] at h
  | cons r rx ih =>
    intro stores c f tx e hb h
    have hr : r < 256 := hb r (List.mem_cons_self _ _)
    have hmod : r % 256 = r := Nat.mod_eq_of_lt hr
    have hb' : ∀ b ∈ rx, b < 256 := fun b hm => hb b (List.mem_cons_of_mem _ hm)
    rcases rx_cases r with h8 | h10 | h13 | h27 | ⟨n8, n10, n13, n27⟩
    · rw [hmod] at h8
      rw [uart_gets_loop_backspace _ _ _ _ _ _ _ (by omega)] at h
      by_cases h0 : c = 0
      · rw [if_neg (by simpa using h0)] at h
        obtain ⟨h1, added, chunks, h2, h3, h4⟩ := ih _ _ _ _ _ hb' h
        have hecho : echoLine ui32Len (r :: rx) c f = echoLine ui32Len rx c f := by
          rw [echoLine, if_pos h8, if_neg (by simpa using h0)]
        rw [hecho]
        exact ⟨h1, added, chunks, h2, h3, h4⟩
      · rw [if_pos h0] at h
        obtain ⟨h1, added, chunks, h2, h3, h4⟩ := ih _ _ _ _ _ hb' h
        have hecho : echoLine ui32Len (r :: rx) c f
            = 8 :: 32 :: 8 :: echoLine ui32Len rx (c - 1) f := by
          rw [echoLine, if_pos h8, if_pos h0]
        rw [hecho]
        refine ⟨?_, added, none :: chunks, h2, ?_, ?_⟩
        · rw [h1]; simp
        · rw [h3]; rfl
        · simpa using h4
    · rw [hmod] at h10
      cases f
      · rw [uart_gets_loop_lf _ _ _ _ _ _ (by omega)] at h
        cases h
        have hecho : echoLine ui32Len (r :: rx) c false = [] := by
          rw [echoLine, if_neg (by omega), if_neg (by simp), if_pos (by omega)]
        rw [hecho]
        exact ⟨by simp, [], [], by simp, rfl, rfl⟩
      · rw [uart_gets_loop_swallow _ _ _ _ _ _ (by omega)] at h
        obtain ⟨h1, added, chunks, h2, h3, h4⟩ := ih _ _ _ _ _ hb' h
        have hecho : echoLine ui32Len (r :: rx) c true = echoLine ui32Len rx c false := by
          rw [echoLine, if_neg (by omega), if_pos ⟨h10, rfl⟩]
        rw [hecho]
        exact ⟨h1, added, chunks, h2, h3, h4⟩
    · rw [hmod] at h13
      rw [uart_gets_loop_cr _ _ _ _ _ _ _ (by omega)] at h
      cases h
      have hecho : echoLine ui32Len (r :: rx) c f = [] := by
        rw [echoLine, if_neg (by omega), if_neg (by omega), if_pos (by omega)]
      rw [hecho]
      exact ⟨by simp, [], [], by simp, rfl, rfl⟩
    · rw [hmod] at h27
      rw [uart_gets_loop_esc _ _ _ _ _ _ _ (by omega)] at h
      cases h
      have hecho : echoLine ui32Len (r :: rx) c f = [] := by
        rw [echoLine, if_neg (by omega), if_neg (by omega), if_pos (by omega)]
      rw [hecho]
      exact ⟨by simp, [], [], by simp, rfl, rfl⟩
    · rw [uart_gets_loop_ordinary _ _ _ _ _ _ _ n8 n10 n13 n27, hmod] at h
      rw [hmod] at n8 n10 n13 n27
      by_cases hlt : c < ui32Len
      · rw [if_pos hlt] at h
        obtain ⟨h1, added, chunks, h2, h3, h4⟩ := ih _ _ _ _ _ hb' h
        have hecho : echoLine ui32Len (r :: rx) c f = r :: echoLine ui32Len rx (c + 1) f := by
          rw [echoLine, if_neg n8, if_neg (by omega), if_neg (by omega), if_pos hlt]
        rw [hecho]
        refine ⟨?_, (c, r) :: added, some r :: chunks, ?_, ?_, ?_⟩
        · rw [h1]; simp
        · rw [h2]; simp
        · rw [h3]; rfl
        · simpa using h4
      · rw [if_neg hlt] at h
        obtain ⟨h1, added, chunks, h2, h3, h4⟩ := ih _ _ _ _ _ hb' h
        have hecho : echoLine ui32Len (r :: rx) c f = echoLine ui32Len rx c f := by
          rw [echoLine, if_neg n8, if_neg (by omega), if_neg (by omega), if_neg hlt]
        rw [hecho]
        exact ⟨h1, added, chunks, h2, h3, h4⟩

/-- The read loop returns exactly on the inputs that hold a byte ending the
read: a carriage return, an escape, a line feed while the flag is clear, or a
second line feed (the first one is swallowed at most). -/
theorem uart_gets_loop_returns (ui32Len : Nat) :
    ∀ (rx : List Nat) (stores : List (Nat × Nat)) (ui32Count : Nat) (bLastWasCR : Bool)
      (tx : List Nat), (∀ b ∈ rx, b < 256) →
      ((uart_gets_loop ui32Len rx stores ui32Count bLastWasCR tx).isSome = true ↔
        (13 ∈ rx ∨ 27 ∈ rx ∨ (10 ∈ rx ∧ bLastWasCR = false) ∨ 2 ≤ rx.count 10)) := by
  intro rx
  induction rx with
  | nil => intro stores c f tx _; simp [uart_gets_loop]
  | cons r rx ih =>
    intro stores c f tx hb
    have hr : r < 256 := hb r (List.mem_cons_self _ _)
    have hmod : r % 256 = r := Nat.mod_eq_of_lt hr
    have hb' : ∀ b ∈ rx, b < 256 := fun b hm => hb b (List.mem_cons_of_mem _ hm)
    have hone : 1 ≤ rx.count 10 ↔ 10 ∈ rx := by
      rw [Nat.succ_le_iff, List.count_pos_iff]
    rcases rx_cases r with h8 | h10 | h13 | h27 | ⟨n8, n10, n13, n27⟩
    · rw [uart_gets_loop_backspace _ _ _ _ _ _ _ h8]
      rw [hmod] at h8
      subst h8
      have hrhs : (13 ∈ 8 :: rx ∨ 27 ∈ 8 :: rx ∨ (10 ∈ 8 :: rx ∧ f = false)
            ∨ 2 ≤ (8 :: rx).count 10)
          ↔ (13 ∈ rx ∨ 27 ∈ rx ∨ (10 ∈ rx ∧ f = false) ∨ 2 ≤ rx.count 10) := by
        simp [List.count_cons]
      rw [hrhs]
      by_cases h0 : c ≠ 0
      · rw [if_pos h0]; exact ih _ _ _ _ hb'
      · rw [if_neg h0]; exact ih _ _ _ _ hb'
    · have h10r : r = 10 := by omega
      subst h10r
      cases f
      · rw [uart_gets_loop_lf _ _ _ _ _ _ h10]
        simp
      · rw [uart_gets_loop_swallow _ _ _ _ _ _ h10, ih _ _ _ _ hb']
        have hcount : (10 :: rx).count 10 = rx.count 10 + 1 := by simp
        rw [hcount]
        constructor
        · rintro (h | h | ⟨h, _⟩ | h)
          · exact Or.inl (List.mem_cons_of_mem _ h)
          · exact Or.inr (Or.inl (List.mem_cons_of_mem _ h))
          · exact Or.inr (Or.inr (Or.inr (by have := hone.2 h; omega)))
          · exact Or.inr (Or.inr (Or.inr (by omega)))
        · rintro (h | h | ⟨_, h⟩ | h)
          · rcases List.mem_cons.1 h with h | h
            · exact absurd h (by decide)
            · exact Or.inl h
          · rcases List.mem_cons.1 h with h | h
            · exact absurd h (by decide)
            · exact Or.inr (Or.inl h)
          · exact absurd h (by decide)
          · exact Or.inr (Or.inr (Or.inl ⟨hone.1 (by omega), rfl⟩))
    · have h13r : r = 13 := by omega
      subst h13r
      rw [uart_gets_loop_cr _ _ _ _ _ _ _ h13]
      simp
    · have h27r : r = 27 := by omega
      subst h27r
      rw [uart_gets_loop_esc _ _ _ _ _ _ _ h27]
      simp
    · rw [uart_gets_loop_ordinary _ _ _ _ _ _ _ n8 n10 n13 n27]
      rw [hmod] at n8 n10 n13 n27 ⊢
      have hrhs : (13 ∈ r :: rx ∨ 27 ∈ r :: rx ∨ (10 ∈ r :: rx ∧ f = false)
            ∨ 2 ≤ (r :: rx).count 10)
          ↔ (13 ∈ rx ∨ 27 ∈ rx ∨ (10 ∈ rx ∧ f = false) ∨ 2 ≤ rx.count 10) := by
        have e13 : ¬ (13 = r) := fun h => n13 h.symm
        have e27 : ¬ (27 = r) := fun h => n27 h.symm
        have e10 : ¬ (10 = r) := fun h => n10 h.symm
        simp [List.count_cons, e13, e27, e10, n10]
      rw [hrhs]
      by_cases hlt : c < ui32Len
      · rw [if_pos hlt]; exact ih _ _ _ _ hb'
      · rw [if_neg hlt]; exact ih _ _ _ _ hb'

/-- A call of `uart_gets` on a non-null buffer returns exactly on the inputs
that hold a byte ending the read. -/
theorem uart_gets_returns (pcBuf : Nat → Nat) (ui32Len : Nat) (bLastWasCR : Bool)
    (rx tx : List Nat) (hrx : ∀ b ∈ rx, b < 256) :
    (uart_gets (some pcBuf) ui32Len bLastWasCR rx tx).isSome = true ↔
      (13 ∈ rx ∨ 27 ∈ rx ∨ (10 ∈ rx ∧ bLastWasCR = false) ∨ 2 ≤ rx.count 10) := by
  rw [← uart_gets_loop_returns ((ui32Len + 2 ^ 32 - 1) % 2 ^ 32) rx [] 0 bLastWasCR tx hrx]
  simp only [uart_gets]
  cases uart_gets_loop ((ui32Len + 2 ^ 32 - 1) % 2 ^ 32) rx [] 0 bLastWasCR tx <;> rfl

/-- C16: the bytes one call of `uart_gets` transmits.  For received bytes
`rx` that hold a byte ending the read (a carriage return, an escape, a line
feed while the flag is clear, or a second line feed: by `uart_gets_returns`
these are all the inputs on which a call returns), the call returns and the
transmit stream has grown by the echo that `echoLine` describes for the usable
length (the capacity less one, modulo `2 ^ 32`), followed by exactly CR LF: in
input order, each stored byte echoed once and unchanged, backspace, space,
backspace for each backspace at a nonzero count, and nothing for a backspace at
count zero, a discarded byte or a swallowed line feed.  The echo is made of the
bytes the call stored ahead of the terminator, once each and in the order of
the assignments, and of erase sequences. -/
theorem uart_gets_echo (pcBuf : Nat → Nat) (ui32Len : Nat) (bLastWasCR : Bool)
    (rx tx : List Nat) (hrx : ∀ b ∈ rx, b < 256)
    (hterm : 13 ∈ rx ∨ 27 ∈ rx ∨ (10 ∈ rx ∧ bLastWasCR = false) ∨ 2 ≤ rx.count 10) :
    ∃ r : GetsResult,
      uart_gets (some pcBuf) ui32Len bLastWasCR rx tx = some r
      ∧ r.tx = tx ++ echoLine ((ui32Len + 2 ^ 32 - 1) % 2 ^ 32) rx 0 bLastWasCR ++ [13, 10]
      ∧ ∃ chunks : List (Option Nat),
          echoLine ((ui32Len + 2 ^ 32 - 1) % 2 ^ 32) rx 0 bLastWasCR = echoChunks chunks ∧
          chunks.filterMap id = r.stores.dropLast.map Prod.snd := by
  have hsome := (uart_gets_loop_returns ((ui32Len + 2 ^ 32 - 1) % 2 ^ 32) rx [] 0 bLastWasCR tx
    hrx).2 hterm
  cases hloop : uart_gets_loop ((ui32Len + 2 ^ 32 - 1) % 2 ^ 32) rx [] 0 bLastWasCR tx with
  | none => rw [hloop] at hsome; exact absurd hsome (by decide)
  | some e =>
    obtain ⟨h1, added, chunks, h2, h3, h4⟩ :=
      uart_gets_loop_echo _ rx [] 0 bLastWasCR tx e hrx hloop
    refine ⟨⟨toInt32 e.ui32Count, e.stores ++ [(e.ui32Count, 0)], e.bLastWasCR, e.rx,
      e.tx ++ [13, 10]⟩, ?_, ?_, chunks, h3, ?_⟩
    · simp only [uart_gets, uart_puts_newline, hloop]
    · simp only [h1]
    · simp only [h2, List.nil_append, List.dropLast_concat]
      exact h4

theorem uart_gets_echo_witness :
    (∃ r : GetsResult,
      uart_gets (some (fun _ => 255)) 8 false [97, 98, 8, 99, 13] [] = some r
      ∧ r.tx = [] ++ echoLine ((8 + 2 ^ 32 - 1) % 2 ^ 32) [97, 98, 8, 99, 13] 0 false ++ [13, 10]
      ∧ ∃ chunks : List (Option Nat),
          echoLine ((8 + 2 ^ 32 - 1) % 2 ^ 32) [97, 98, 8, 99, 13] 0 false = echoChunks chunks ∧
          chunks.filterMap id = r.stores.dropLast.map Prod.snd)
      ∧ uart_gets (some (fun _ => 255)) 8 false [97, 98, 8, 99, 13] []
          = some ⟨2, [(0, 97), (1, 98), (1, 99), (2, 0)], true, [],
              [97, 98, 8, 32, 8, 99, 13, 10]⟩
      ∧ echoLine ((8 + 2 ^ 32 - 1) % 2 ^ 32) [97, 98, 8, 99, 13] 0 false
          = [97, 98, 8, 32, 8, 99]
      ∧ (∃ r : GetsResult,
          uart_gets (some (fun _ => 255)) 2 true [10, 8, 97, 98, 10, 99] [] = some r
          ∧ r.tx = [] ++ echoLine ((2 + 2 ^ 32 - 1) % 2 ^ 32) [10, 8, 97, 98, 10, 99] 0 true
              ++ [13, 10]
          ∧ ∃ chunks : List (Option Nat),
              echoLine ((2 + 2 ^ 32 - 1) % 2 ^ 32) [10, 8, 97, 98, 10, 99] 0 true
                = echoChunks chunks ∧
              chunks.filterMap id = r.stores.dropLast.map Prod.snd)
      ∧ uart_gets (some (fun _ => 255)) 2 true [10, 8, 97, 98, 10, 99] []
          = some ⟨1, [(0, 97), (1, 0)], false, [99], [97, 13, 10]⟩ :=
  ⟨uart_gets_echo (fun _ => 255) 8 false [97, 98, 8, 99, 13] [] (by decide)
    (Or.inl (by decide)), by decide, by decide,
   uart_gets_echo (fun _ => 255) 2 true [10, 8, 97, 98, 10, 99] [] (by decide)
    (Or.inr (Or.inr (Or.inr (by decide)))), by decide⟩

/-! ## Line reader: input beyond the buffer, and capacity 0 -/

/-- Ordinary bytes received while the buffer is full are consumed and nothing
else happens. -/
theorem uart_gets_loop_full (ui32Len : Nat) (rest : List Nat) :
    ∀ (line : List Nat) (stores : List (Nat × Nat)) (ui32Count : Nat) (bLastWasCR : Bool)
      (tx : List Nat), (∀ b ∈ line, ordinary b) → ui32Len ≤ ui32Count →
      uart_gets_loop ui32Len (line ++ rest) stores ui32Count bLastWasCR tx
        = uart_gets_loop ui32Len rest stores ui32Count bLastWasCR tx := by
  intro line
  induction line with
  | nil => intro _ _ _ _ _ _; rfl
  | cons b line ih =>
    intro stores c f tx hb hfull
    obtain ⟨h256, h8, h10, h13, h27⟩ := hb b (List.mem_cons_self _ _)
    rw [List.cons_append,
      uart_gets_loop_ordinary _ _ _ _ _ _ _ (by omega) (by omega) (by omega) (by omega),
      if_neg (by omega)]
    exact ih _ _ _ _ (fun c hc => hb c (List.mem_cons_of_mem _ hc)) hfull

/-- One call of `uart_gets` on a line of ordinary bytes of any length and for
any value of the length parameter: the bytes within the usable length are
stored and echoed, the others are consumed. -/
theorem uart_gets_take (pcBuf : Nat → Nat) (ui32Len : Nat) (bLastWasCR : Bool)
    (line : List Nat) (term : Nat) (rest tx : List Nat) (hline : ∀ b ∈ line, ordinary b)
    (hterm : term = 13 ∨ term = 27 ∨ (term = 10 ∧ bLastWasCR = false)) :
    uart_gets (some pcBuf) ui32Len bLastWasCR (line ++ term :: rest) tx
      = some ⟨toInt32 (line.take ((ui32Len + 2 ^ 32 - 1) % 2 ^ 32)).length,
          (line.take ((ui32Len + 2 ^ 32 - 1) % 2 ^ 32)).enumFrom 0
            ++ [((line.take ((ui32Len + 2 ^ 32 - 1) % 2 ^ 32)).length, 0)],
          if term = 13 then true else bLastWasCR, rest,
          tx ++ line.take ((ui32Len + 2 ^ 32 - 1) % 2 ^ 32) ++ [13, 10]⟩ := by
  simp only [uart_gets]
  generalize (ui32Len + 2 ^ 32 - 1) % 2 ^ 32 = len
  have hsplit : line ++ term :: rest = line.take len ++ (line.drop len ++ term :: rest) := by
    rw [← List.append_assoc, List.take_append_drop]
  have htake : ∀ b ∈ line.take len, ordinary b := fun b hb => hline b (List.mem_of_mem_take hb)
  have hdrop : ∀ b ∈ line.drop len, ordinary b := fun b hb => hline b (List.mem_of_mem_drop hb)
  have hle : (line.take len).length ≤ len := by
    rw [List.length_take]; exact Nat.min_le_left _ _
  have hrun := uart_gets_loop_run len (line.drop len ++ term :: rest) (line.take len) [] 0
    bLastWasCR tx htake (by omega)
  rw [Nat.zero_add, List.nil_append] at hrun
  have hfull : uart_gets_loop len (line.drop len ++ term :: rest) ((line.take len).enumFrom 0)
        (line.take len).length bLastWasCR (tx ++ line.take len)
      = uart_gets_loop len (term :: rest) ((line.take len).enumFrom 0)
        (line.take len).length bLastWasCR (tx ++ line.take len) := by
    by_cases hk : line.length ≤ len
    · rw [List.drop_eq_nil_of_le hk]; rfl
    · apply uart_gets_loop_full len (term :: rest) _ _ _ _ _ hdrop
      rw [List.length_take]
      omega
  have hexit : uart_gets_loop len (term :: rest) ((line.take len).enumFrom 0)
      (line.take len).length bLastWasCR (tx ++ line.take len)
      = some ⟨(line.take len).length, (line.take len).enumFrom 0,
          if term = 13 then true else bLastWasCR, rest, tx ++ line.take len⟩ := by
    rcases hterm with h | h | ⟨h, hf⟩
    · subst h; exact uart_gets_loop_cr _ 13 _ _ _ _ _ (by decide)
    · subst h; exact uart_gets_loop_esc _ 27 _ _ _ _ _ (by decide)
    · subst h; subst hf; exact uart_gets_loop_lf _ 10 _ _ _ _ (by decide)
  rw [hsplit, hrun, hfull, hexit]
  simp only [uart_puts_newline]

theorem bufPrefix_line (mem : Nat → Nat) (line : List Nat) :
    bufPrefix (bufAfter mem (line.enumFrom 0 ++ [(line.length, 0)])) line.length = line := by
  rw [bufPrefix_store_above _ _ _ _ _ (Nat.le_refl _)]
  simpa using bufPrefix_enumFrom mem line [] [] (by simp [bufPrefix])

/-- C17: input beyond the buffer is dropped silently.  For a capacity
`ui32Len ≥ 1` (that of a buffer of the 32-bit target, hence below `2 ^ 31`) and
an input of `k` ordinary bytes followed by a terminator (CR, ESC, or LF while
the flag is clear), `uart_gets` returns `min k (ui32Len - 1)`, has stored
exactly the first `min k (ui32Len - 1)` bytes, at the indices from 0, and the
terminating 0 behind them, has echoed exactly those bytes ahead of CR LF, and
has consumed the whole line and its terminator. -/
theorem uart_gets_drops_excess (pcBuf : Nat → Nat) (ui32Len : Nat) (bLastWasCR : Bool)
    (line : List Nat) (term : Nat) (rest tx : List Nat)
    (hcap : 1 ≤ ui32Len) (hsize : ui32Len < 2 ^ 31) (hline : ∀ b ∈ line, ordinary b)
    (hterm : term = 13 ∨ term = 27 ∨ (term = 10 ∧ bLastWasCR = false)) :
    ∃ r : GetsResult,
      uart_gets (some pcBuf) ui32Len bLastWasCR (line ++ term :: rest) tx = some r ∧
      r.ret = ((min line.length (ui32Len - 1) : Nat) : Int) ∧
      r.stores = (line.take (ui32Len - 1)).enumFrom 0 ++ [(min line.length (ui32Len - 1), 0)] ∧
      bufPrefix (bufAfter pcBuf r.stores) (min line.length (ui32Len - 1))
        = line.take (ui32Len - 1) ∧
      bufAfter pcBuf r.stores (min line.length (ui32Len - 1)) = 0 ∧
      r.tx = tx ++ line.take (ui32Len - 1) ++ [13, 10] ∧
      r.rx = rest := by
  have hlen : (ui32Len + 2 ^ 32 - 1) % 2 ^ 32 = ui32Len - 1 := by omega
  have hrun := uart_gets_take pcBuf ui32Len bLastWasCR line term rest tx hline hterm
  rw [hlen] at hrun
  have hmin : (line.take (ui32Len - 1)).length = min line.length (ui32Len - 1) := by
    rw [List.length_take, Nat.min_comm]
  have hlt : min line.length (ui32Len - 1) < 2 ^ 31 :=
    lt_of_le_of_lt (Nat.min_le_right _ _) (by omega)
  rw [hmin, toInt32_of_lt _ hlt] at hrun
  refine ⟨_, hrun, rfl, rfl, ?_, ?_, rfl, rfl⟩
  · have := bufPrefix_line pcBuf (line.take (ui32Len - 1))
    rw [hmin] at this
    exact this
  · exact bufAfter_append_self _ _ _ _

theorem uart_gets_drops_excess_witness :
    ∃ r : GetsResult,
      uart_gets (some fun _ => 255) 3 false ([97, 98, 99, 100] ++ 13 :: [101]) [] = some r ∧
      r.ret = 2 ∧
      r.stores = ([97, 98, 99, 100].take (3 - 1)).enumFrom 0 ++ [(2, 0)] ∧
      bufPrefix (bufAfter (fun _ => 255) r.stores) 2 = [97, 98] ∧
      bufAfter (fun _ => 255) r.stores 2 = 0 ∧
      r.tx = [] ++ [97, 98] ++ [13, 10] ∧
      r.rx = [101] :=
  uart_gets_drops_excess (fun _ => 255) 3 false [97, 98, 99, 100] 13 [101] [] (by decide)
    (by norm_num) (by decide) (by decide)

/-- C20, as amended: with a non-null buffer and capacity 0 the length wraps
to `2 ^ 32 - 1` and no bound is enforced.  For an input of `k < 2 ^ 32 - 1`
ordinary bytes followed by a terminator (CR, ESC, or LF while the flag is
clear), `uart_gets` stores all `k` bytes at the indices `0 .. k - 1`, assigns
the terminating 0 at index `k`, and returns `k` converted to `int`: `k` itself
when `k < 2 ^ 31`, and `k - 2 ^ 32` otherwise. -/
theorem uart_gets_capacity_zero (pcBuf : Nat → Nat) (bLastWasCR : Bool)
    (line : List Nat) (term : Nat) (rest tx : List Nat)
    (hline : ∀ b ∈ line, ordinary b) (hk : line.length < 2 ^ 32 - 1)
    (hterm : term = 13 ∨ term = 27 ∨ (term = 10 ∧ bLastWasCR = false)) :
    ∃ r : GetsResult,
      uart_gets (some pcBuf) 0 bLastWasCR (line ++ term :: rest) tx = some r ∧
      r.stores = line.enumFrom 0 ++ [(line.length, 0)] ∧
      bufPrefix (bufAfter pcBuf r.stores) line.length = line ∧
      bufAfter pcBuf r.stores line.length = 0 ∧
      (line.length < 2 ^ 31 → r.ret = (line.length : Int)) ∧
      (2 ^ 31 ≤ line.length → r.ret = (line.length : Int) - 2 ^ 32) ∧
      r.tx = tx ++ line ++ [13, 10] ∧
      r.rx = rest := by
  have hlen : (0 + 2 ^ 32 - 1) % 2 ^ 32 = 2 ^ 32 - 1 := by norm_num
  have hrun := uart_gets_take pcBuf 0 bLastWasCR line term rest tx hline hterm
  rw [hlen, List.take_of_length_le (by omega)] at hrun
  refine ⟨_, hrun, rfl, bufPrefix_line pcBuf line, bufAfter_append_self _ _ _ _, ?_, ?_, rfl, rfl⟩
  · intro h
    exact toInt32_of_lt _ h
  · intro h
    show toInt32 line.length = _
    unfold toInt32
    have hmod : line.length % 2 ^ 32 = line.length := Nat.mod_eq_of_lt (by omega)
    rw [hmod, if_neg (by omega)]

theorem uart_gets_capacity_zero_witness :
    ∃ r : GetsResult,
      uart_gets (some fun _ => 255) 0 false ([97] ++ 13 :: []) [] = some r ∧
      r.stores = [(0, 97), (1, 0)] ∧
      bufPrefix (bufAfter (fun _ => 255) r.stores) 1 = [97] ∧
      bufAfter (fun _ => 255) r.stores 1 = 0 ∧
      ((1 : Nat) < 2 ^ 31 → r.ret = 1) ∧
      (2 ^ 31 ≤ (1 : Nat) → r.ret = 1 - 2 ^ 32) ∧
      r.tx = [] ++ [97] ++ [13, 10] ∧
      r.rx = [] :=
  uart_gets_capacity_zero (fun _ => 255) false [97] 13 [] [] (by decide) (by norm_num)
    (by decide)

/-- C20, as stated, fails: with capacity 0 and `2 ^ 31` bytes `a` followed by
CR, the count reaches `2 ^ 31` and the value returned as `int` is
`-2147483648`, not `2 ^ 31`. -/
theorem uart_gets_unbounded_negative_return :
    ¬ (∀ r : GetsResult,
        uart_gets (some fun _ => 0) 0 false (List.replicate (2 ^ 31) 97 ++ 13 :: []) []
          = some r →
        r.ret = ((2 ^ 31 : Nat) : Int)) := by
  intro h
  have hord : ∀ b ∈ List.replicate (2 ^ 31) 97, ordinary b := by
    intro b hb
    rw [List.eq_of_mem_replicate hb]
    decide
  have hrun := uart_gets_take (fun _ => 0) 0 false (List.replicate (2 ^ 31) 97) 13 [] []
    hord (Or.inl rfl)
  have hret := h _ hrun
  dsimp only at hret
  rw [List.length_take, List.length_replicate] at hret
  have hmin : min ((0 + 2 ^ 32 - 1) % 2 ^ 32) (2 ^ 31) = 2 ^ 31 := by norm_num
  rw [hmin] at hret
  have hneg : toInt32 (2 ^ 31) = -2 ^ 31 := by
    unfold toInt32
    norm_num
  rw [hneg] at hret
  norm_num at hret

/-! ## Format engine: the end of the template -/

/-- C18, evaluated on the failing inputs.  For the template `"%"` the `switch`
reads the terminating NUL as the directive, transmits `"ERROR"` and leaves
`pcString` behind the NUL, so the test of the `while` loop reads the byte that
follows the template: that read is outside the object when the template is all
there is, and it goes on into the bytes `A`, NUL when they follow.  The same
happens for `"%5"`, a `'%'` followed only by width digits. -/
theorem uart_vprintf_reads_past_nul :
    uart_vprintf (some [37, 0]) [] [] = .error .read_past_end
      ∧ again [0] 0 32 [] [] = .ok ([], [], [69, 82, 82, 79, 82])
      ∧ uart_vprintf (some [37, 0, 65, 0]) [] [] = .ok ([], [69, 82, 82, 79, 82, 65])
      ∧ uart_vprintf (some [37, 53, 0]) [] [] = .error .read_past_end
      ∧ uart_vprintf (some [37, 53, 0, 65, 0]) [] [] = .ok ([], [69, 82, 82, 79, 82, 65]) := by
  decide

end UartStdio
